import Mathlib

/-!
A shallow embedding of the CDCL solver sources (core.py, solver.py,
heuristics.py, parser.py) together with proofs about the embedded
operations.

Modelling conventions:
* Python `set`s are duplicate-free lists (`setAdd` / `setDiscard`);
  Python `dict`s are association lists (`mapFind` / `mapStore` / `mapDrop`).
* A Python `IndexError` (or failed `assert`) is `none` in an `Option`
  result; Python negative list indexing is modelled by `pyGet`/`pySliceTo`.
* The wall-clock timeout of the driver is modelled by a fuel parameter,
  the seeded PRNG of the heuristics by abstract selector functions, and
  Python floats (VSIDS activities) by rationals.
-/

namespace CDCL

/-- A boolean literal (core.py `BoolLiteral`); `polarity = true` is the
positive literal.  The Python attribute `variable` is called `var` here
because `variable` is a Lean keyword. -/
structure BoolLiteral where
  var : String
  polarity : Bool
deriving DecidableEq

def BoolLiteral.negate (l : BoolLiteral) : BoolLiteral :=
  ⟨l.var, !l.polarity⟩

def BoolLiteral.make_pos (v : String) : BoolLiteral := ⟨v, true⟩

def BoolLiteral.make_neg (v : String) : BoolLiteral := ⟨v, false⟩

/-- A CNF clause (core.py `Clause`).  Python stores the literals as a
`set`; we store a duplicate-free list, built through `Clause.make`, which
removes duplicates exactly like the `set(literals)` constructor. -/
structure Clause where
  lits : List BoolLiteral
deriving DecidableEq

def Clause.make (ls : List BoolLiteral) : Clause := ⟨ls.dedup⟩

/-- Python `Clause.__eq__`: equality of the literal sets. -/
def Clause.eqv (c d : Clause) : Bool :=
  c.lits.all (fun l => decide (l ∈ d.lits)) && d.lits.all (fun l => decide (l ∈ c.lits))

/-- Python-dict lookup in an association list. -/
def mapFind {κ β : Type} [DecidableEq κ] (d : List (κ × β)) (k : κ) : Option β :=
  match d with
  | [] => none
  | (k0, v) :: rest => if k0 = k then some v else mapFind rest k

/-- Python-dict store `d[k] = v` (overwrites any existing binding). -/
def mapStore {κ β : Type} [DecidableEq κ] (d : List (κ × β)) (k : κ) (v : β) :
    List (κ × β) :=
  d.filter (fun p => !decide (p.1 = k)) ++ [(k, v)]

/-- Python `d.pop(k, None)`: remove the binding of `k`, if any. -/
def mapDrop {κ β : Type} [DecidableEq κ] (d : List (κ × β)) (k : κ) : List (κ × β) :=
  d.filter (fun p => !decide (p.1 = k))

/-- Python `set.add` on a set represented as a duplicate-free list. -/
def setAdd {α : Type} [DecidableEq α] (s : List α) (a : α) : List α :=
  if a ∈ s then s else s ++ [a]

/-- Python `set.discard`. -/
def setDiscard {α : Type} [DecidableEq α] (s : List α) (a : α) : List α :=
  s.filter (fun b => !decide (b = a))

/-- Python list indexing `l[i]`, including negative-index wrap-around;
`none` models an `IndexError`. -/
def pyGet {α : Type} (l : List α) (i : Int) : Option α :=
  if 0 ≤ i then l.get? i.toNat
  else if 0 ≤ (l.length : Int) + i then l.get? ((l.length : Int) + i).toNat
  else none

/-- Python slice `l[:i]` (a negative `i` counts from the end). -/
def pySliceTo {α : Type} (l : List α) (i : Int) : List α :=
  if 0 ≤ i then l.take i.toNat else l.take ((l.length : Int) + i).toNat

/-- The trail (core.py `Model`).  `decision_level` is a Python int (it can
go negative through `backjump` with a negative argument, which Python's
negative indexing accepts), so it is modelled as `Int`. -/
structure Model where
  assignment : List BoolLiteral
  decision_level : Int
  decisions : List Nat
  decision_levels : List (BoolLiteral × Int)
deriving DecidableEq

def Model.init : Model := ⟨[], 0, [], []⟩

/-- core.py `Model.assign`: a forced (propagated) literal. -/
def Model.assign (m : Model) (literal : BoolLiteral) : Model :=
  { m with assignment := m.assignment ++ [literal],
           decision_levels := mapStore m.decision_levels literal m.decision_level }

/-- core.py `Model.decide`: a guess at a new decision level. -/
def Model.decide (m : Model) (literal : BoolLiteral) : Model :=
  { assignment := m.assignment ++ [literal],
    decisions := m.decisions ++ [m.assignment.length],
    decision_level := m.decision_level + 1,
    decision_levels := mapStore m.decision_levels literal (m.decision_level + 1) }

/-- core.py `Model.backjump`; `none` models the `IndexError` when
`decisions[decision_level]` does not exist. -/
def Model.backjump (m : Model) (decision_level : Int) : Option Model :=
  match pyGet m.decisions decision_level with
  | none => none
  | some idx =>
    let removed := m.assignment.drop idx
    some { assignment := m.assignment.take idx,
           decisions := pySliceTo m.decisions decision_level,
           decision_level := decision_level,
           decision_levels := removed.foldl (fun d l => mapDrop d l) m.decision_levels }

def Model.get_current_decision_literals (m : Model) : List BoolLiteral :=
  match m.decisions.getLast? with
  | none => m.assignment
  | some i => m.assignment.drop i

/-- core.py `Model.get_last_literal`; `none` models the `IndexError` on an
empty assignment. -/
def Model.get_last_literal (m : Model) : Option BoolLiteral :=
  m.assignment.getLast?

/-- core.py `Model.get_level`: the level of the literal if recorded, else of
its negation, else -1. -/
def Model.get_level (m : Model) (literal : BoolLiteral) : Int :=
  match mapFind m.decision_levels literal with
  | some lvl => lvl
  | none =>
    match mapFind m.decision_levels literal.negate with
    | some lvl => lvl
    | none => -1

/-- core.py `ImplicationGraph`: `edges` maps each child to its set of
parents; `conflict_clause` is the working resolvent. -/
structure ImplicationGraph where
  edges : List (BoolLiteral × List BoolLiteral)
  conflict_clause : Option (List BoolLiteral)
deriving DecidableEq

def ImplicationGraph.init : ImplicationGraph := ⟨[], none⟩

def ImplicationGraph.getParents (g : ImplicationGraph) (n : BoolLiteral) :
    List BoolLiteral :=
  (mapFind g.edges n).getD []

def ImplicationGraph.hasNode (g : ImplicationGraph) (n : BoolLiteral) : Bool :=
  (mapFind g.edges n).isSome

/-- core.py `ImplicationGraph.add_node` (`edges.setdefault(node, set())`). -/
def ImplicationGraph.add_node (g : ImplicationGraph) (node : BoolLiteral) :
    ImplicationGraph :=
  if g.hasNode node then g else { g with edges := g.edges ++ [(node, [])] }

/-- core.py `ImplicationGraph.add_edge` (`edges.setdefault(tgt, set()).add(src)`):
the parent set of `tgt` gains `src` (an entry is created when missing), all
other entries are untouched.  Since no embedded operation observes the
dict's key order, the update is written with `mapStore`; `setdefault`
yields `set()` exactly when the key is absent, which is when `getParents`
yields `[]`. -/
def ImplicationGraph.add_edge (g : ImplicationGraph) (src tgt : BoolLiteral) :
    ImplicationGraph :=
  { g with edges := mapStore g.edges tgt (setAdd (g.getParents tgt) src) }

/-- core.py `ImplicationGraph.add_conflict` (stores a copy of `srcs`). -/
def ImplicationGraph.add_conflict (g : ImplicationGraph) (srcs : List BoolLiteral) :
    ImplicationGraph :=
  { g with conflict_clause := some srcs }

/-- core.py `ImplicationGraph.explain`: one resolution-like step — remove
`¬node` from the conflict clause and add the negations of `node`'s parents. -/
def ImplicationGraph.explain (g : ImplicationGraph) (node : BoolLiteral) :
    ImplicationGraph :=
  match g.conflict_clause with
  | none => g
  | some cc =>
    let resolvent := (g.getParents node).foldl (fun s p => setAdd s p.negate)
      (setDiscard cc node.negate)
    { g with conflict_clause := some resolvent }

/-- core.py `State`. -/
structure State where
  clauses : List Clause
  model : Model
  conflict : Option Clause
  unsat : Bool
  sat : Bool
deriving DecidableEq

def State.init (clauses : List Clause) : State :=
  ⟨clauses, Model.init, none, false, false⟩

/-- core.py `Core`.  The Python attribute `self.graph` always aliases
`graphs[-1]`; here the active graph is the derived `Core.graph`. -/
structure Core where
  graphs : List ImplicationGraph
  in_conflict : Bool
  state : State
deriving DecidableEq

def Core.init (state : State) : Core :=
  ⟨[ImplicationGraph.init], false, state⟩

/-- The active graph `self.graph` = `graphs[-1]`; the Python code never lets
`graphs` become empty, so the default is never consulted on engine-built
states. -/
def Core.graph (c : Core) : ImplicationGraph :=
  c.graphs.getLastD ImplicationGraph.init

/-- The scan of core.py `Core.propagate`: count the literals whose
complement is not in the model, remembering the last such literal. -/
def propagateScan (m : Model) (lits : List BoolLiteral) : Nat × Option BoolLiteral :=
  lits.foldl
    (fun acc l => if l.negate ∈ m.assignment then acc else (acc.1 + 1, some l))
    (0, none)

/-- The body of core.py `Core.propagate` applied to the fetched clause. -/
def Core.propagateC (core : Core) (clause : Clause) : Bool × Core :=
  let m := core.state.model
  let scan := propagateScan m clause.lits
  match scan.2 with
  | some u =>
    if scan.1 = 1 ∧ u ∉ m.assignment ∧ u.negate ∉ m.assignment then
      let g0 := core.graph.add_node u
      let g1 := (clause.lits.filter (fun l => !Decidable.decide (l = u))).foldl
          (fun g l => g.add_edge l.negate u) g0
      (true, { core with graphs := core.graphs.dropLast ++ [g1],
                         state := { core.state with model := m.assign u } })
    else (false, core)
  | none => (false, core)

/-- core.py `Core.propagate`; `none` models the `IndexError` on a bad clause
index. -/
def Core.propagate (core : Core) (clause_idx : Nat) : Option (Bool × Core) :=
  (core.state.clauses.get? clause_idx).map core.propagateC

/-- core.py `Core.decide`: a decision at a new level, snapshotting the
active graph (the `deepcopy` is a value copy here). -/
def Core.decide (core : Core) (literal : BoolLiteral) : Bool × Core :=
  let m := core.state.model
  if literal ∉ m.assignment ∧ literal.negate ∉ m.assignment then
    (true, { core with graphs := core.graphs ++ [core.graph],
                       state := { core.state with model := m.decide literal } })
  else (false, core)

/-- The body of core.py `Core.conflict` applied to the fetched clause. -/
def Core.conflictC (core : Core) (clause : Clause) : Bool × Core :=
  if core.in_conflict then (false, core)
  else if clause.lits.all (fun l => Decidable.decide (l.negate ∈ core.state.model.assignment)) then
    let g := core.graph.add_conflict clause.lits
    (true, { core with graphs := core.graphs.dropLast ++ [g],
                       in_conflict := true,
                       state := { core.state with conflict := some (Clause.make clause.lits) } })
  else (false, core)

/-- core.py `Core.conflict`; `none` models the `IndexError` on a bad clause
index. -/
def Core.conflict (core : Core) (clause_idx : Nat) : Option (Bool × Core) :=
  (core.state.clauses.get? clause_idx).map core.conflictC

/-- One iteration of the while loop of core.py `Core.explain`: pop the last
trail literal and resolve the graph's conflict clause with it.  `none`
models the `IndexError` from popping an empty list. -/
def explainPop (core : Core) : Option Core :=
  match core.state.model.assignment.getLast? with
  | none => none
  | some last_literal =>
    some { core with
           graphs := core.graphs.dropLast ++ [core.graph.explain last_literal],
           state := { core.state with
                      model := { core.state.model with
                                 assignment := core.state.model.assignment.dropLast } } }

/-- The while loop of core.py `Core.explain`: with a current-level snapshot
of length `n` it performs `n - 1` pops. -/
def explainGo (core : Core) : Nat → Option Core
  | 0 => some core
  | 1 => some core
  | n + 2 =>
    match explainPop core with
    | none => none
    | some c => explainGo c (n + 1)

/-- core.py `Core.explain`. -/
def Core.explain (core : Core) : Option (Bool × Core) :=
  (explainGo core core.state.model.get_current_decision_literals.length).map
    (fun c => (true, c))

/-- The asserting level computed inside core.py `Core.backjump`: the maximum
model level over the conflict-clause literals other than the negation of the
UIP, starting from -1. -/
def assertingLevel (m : Model) (cc : List BoolLiteral) (uip : BoolLiteral) : Int :=
  (cc.filter (fun l => !decide (l = uip.negate))).foldl
    (fun lv l => max lv (m.get_level l)) (-1)

/-- core.py `Core.backjump`; `none` models the `IndexError`s that
`model.backjump` or the final `self.graph = self.graphs[-1]` can raise. -/
def Core.backjump (core : Core) (decision_level : Int) : Option (Bool × Core) :=
  if !core.in_conflict then some (false, core)
  else
    match core.graph.conflict_clause with
    | none => some (false, core)
    | some cc =>
      match core.state.model.get_last_literal with
      | none => none
      | some decision_literal =>
        if assertingLevel core.state.model cc decision_literal ≤ decision_level then
          match core.state.model.backjump decision_level with
          | none => none
          | some m1 =>
            let gs := pySliceTo core.graphs (decision_level + 1)
            if gs.isEmpty then none
            else some (true,
              { graphs := gs,
                in_conflict := false,
                state := { core.state with
                           model := m1.assign decision_literal.negate,
                           conflict := none } })
        else some (false, core)

/-- core.py `Core.fail`. -/
def Core.fail (core : Core) : Bool × Core :=
  if core.state.model.decision_level = 0 ∧ core.in_conflict then
    (true, { core with state := { core.state with unsat := true } })
  else (false, core)

/-- Python `learned not in self.state.clauses`: list membership tested by
clause set equality (`Clause.__eq__`). -/
def clauseElem (c : Clause) (db : List Clause) : Bool :=
  db.any (fun d => Clause.eqv c d)

/-- core.py `Core.learn`: append the conflict clause to the database if new;
return it either way. -/
def Core.learn (core : Core) : Option Clause × Core :=
  match core.graph.conflict_clause with
  | none => (none, core)
  | some cc =>
    let learned := Clause.make cc
    if clauseElem learned core.state.clauses then (some learned, core)
    else (some learned,
      { core with state := { core.state with clauses := core.state.clauses ++ [learned] } })

/-- solver.py `SolveStats`. -/
structure SolveStats where
  decisions : Nat
  conflicts : Nat
  learned_clauses : Nat
  propagations : Nat
deriving DecidableEq

def SolveStats.init : SolveStats := ⟨0, 0, 0, 0⟩

/-- solver.py `SolveResult` (the wall-clock `runtime_sec` is omitted). -/
structure SolveResult where
  status : String
  stats : SolveStats
  assignment : List (String × Bool)
deriving DecidableEq

/-- solver.py `_assignment_dict`. -/
def assignment_dict (state : State) : List (String × Bool) :=
  state.model.assignment.foldl (fun out lit => mapStore out lit.var lit.polarity) []

/-- solver.py `_is_clause_satisfied`. -/
def is_clause_satisfied (clause : Clause) (state : State) : Bool :=
  clause.lits.any (fun lit => decide (lit ∈ state.model.assignment))

/-- solver.py `_is_formula_satisfied`. -/
def is_formula_satisfied (state : State) : Bool :=
  state.clauses.all (fun c => is_clause_satisfied c state)

/-- One pass of the for loop of solver.py `_unit_propagate_all` over the
clause database (which neither `conflict` nor `propagate` modifies, so the
snapshot equals `range(len(clauses))` indexing). -/
def sweep : List Clause → Core → SolveStats → Bool → Core × SolveStats × Bool
  | [], core, stats, changed => (core, stats, changed)
  | cl :: rest, core, stats, changed =>
    let rc := core.conflictC cl
    if rc.1 then (rc.2, { stats with conflicts := stats.conflicts + 1 }, changed)
    else
      let rp := rc.2.propagateC cl
      if rp.1 then sweep rest rp.2 { stats with propagations := stats.propagations + 1 } true
      else sweep rest rp.2 stats changed

/-- solver.py `_unit_propagate_all`; `fuel` bounds the number of sweeps (the
Python while loop terminates because every dirty sweep grows the model). -/
def unit_propagate_all (fuel : Nat) (core : Core) (stats : SolveStats) :
    Core × SolveStats :=
  match fuel with
  | 0 => (core, stats)
  | fuel + 1 =>
    if core.in_conflict then (core, stats)
    else
      let r := sweep core.state.clauses core stats false
      if r.2.2 then unit_propagate_all fuel r.1 r.2.1 else (r.1, r.2.1)

/-- solver.py `_compute_backjump_level`; `none` models the failed `assert`
or the `IndexError` of `get_last_literal`. -/
def compute_backjump_level (core : Core) : Option Int :=
  match core.graph.conflict_clause with
  | none => none
  | some cc =>
    match core.state.model.get_last_literal with
    | none => none
    | some decision_lit =>
      let others := cc.filter (fun l => !decide (l = decision_lit.negate))
      match others with
      | [] => some 0
      | o :: rest =>
        some (rest.foldl (fun lv l => max lv (core.state.model.get_level l))
          (core.state.model.get_level o))

/-- The learn-and-count fragment of solver.py `solve_cnf` conflict handling
(solver.py lines 116-119); the heuristic notification only touches heuristic
state, which `solveLoop` abstracts away. -/
def handleLearn (core : Core) (stats : SolveStats) : Core × SolveStats :=
  let r := core.learn
  match r.1 with
  | some _ => (r.2, { stats with learned_clauses := stats.learned_clauses + 1 })
  | none => (r.2, stats)

/-- The main loop of solver.py `solve_cnf`.  The wall-clock timeout is
modelled by `fuel` (one unit per iteration); the decision heuristic is
abstracted as `pick`, receiving the number of earlier calls (this covers
both concrete heuristics together with their PRNG state).  The result is
`(none, c)` when the Python code would raise an exception. -/
def solveLoop (pick : Nat → Model → Option BoolLiteral) :
    Nat → Nat → Core → SolveStats → Option SolveResult × Core
  | 0, _, core, stats => (some ⟨"TIMEOUT", stats, assignment_dict core.state⟩, core)
  | fuel + 1, picks, core, stats =>
    let r0 := unit_propagate_all (fuel + 1) core stats
    let core0 := r0.1
    let stats0 := r0.2
    if core0.in_conflict then
      let rf := core0.fail
      if rf.1 then (some ⟨"UNSAT", stats0, assignment_dict rf.2.state⟩, rf.2)
      else
        match Core.explain rf.2 with
        | none => (none, rf.2)
        | some re =>
          let rl := handleLearn re.2 stats0
          match compute_backjump_level rl.1 with
          | none => (none, rl.1)
          | some bj =>
            match Core.backjump rl.1 bj with
            | none => (none, rl.1)
            | some rb => solveLoop pick fuel picks rb.2 rl.2
    else if is_formula_satisfied core0.state then
      let cs := { core0 with state := { core0.state with sat := true } }
      (some ⟨"SAT", stats0, assignment_dict cs.state⟩, cs)
    else
      match pick picks core0.state.model with
      | none =>
        let cu := { core0 with state := { core0.state with unsat := true } }
        (some ⟨"UNSAT", stats0, assignment_dict cu.state⟩, cu)
      | some lit =>
        let rd := core0.decide lit
        if rd.1 then
          solveLoop pick fuel (picks + 1) rd.2
            { stats0 with decisions := stats0.decisions + 1 }
        else solveLoop pick fuel (picks + 1) rd.2 stats0

/-- solver.py `solve_cnf`: build the fresh state (line 84 copies the
caller's list) and run the loop. -/
def solve_cnf (pick : Nat → Model → Option BoolLiteral) (fuel : Nat)
    (clauses : List Clause) : Option SolveResult × Core :=
  solveLoop pick fuel 0 (Core.init (State.init clauses)) SolveStats.init

/-- heuristics.py `RandomBaselineHeuristic.pick_decision`.  The two
`rng.choice` calls are abstracted: `chooseVar` selects an index into the
non-empty unassigned list, `choosePol` is the chosen polarity. -/
def baselinePick (chooseVar : List String → Nat) (choosePol : Bool)
    (varList : List String) (m : Model) : Option BoolLiteral :=
  let unassigned_vars := varList.filter (fun v =>
    !decide (BoolLiteral.make_pos v ∈ m.assignment) &&
    !decide (BoolLiteral.make_neg v ∈ m.assignment))
  if unassigned_vars.isEmpty then none
  else
    let v := unassigned_vars.getD (chooseVar unassigned_vars % unassigned_vars.length) ""
    some ⟨v, choosePol⟩

/-- `score > best_score` where `best_score` starts as float("-inf")
(modelled as `none`). -/
def scoreGt (score : ℚ) (best : Option ℚ) : Bool :=
  match best with
  | none => true
  | some b => decide (b < score)

/-- `score == best_score` against the same -inf model. -/
def scoreEq (score : ℚ) (best : Option ℚ) : Bool :=
  match best with
  | none => false
  | some b => decide (score = b)

/-- The inner candidate update of heuristics.py `VSIDSHeuristic.pick_decision`
for one literal. -/
def vsidsStep (activity : List (BoolLiteral × ℚ)) (acc : Option ℚ × List BoolLiteral)
    (lit : BoolLiteral) : Option ℚ × List BoolLiteral :=
  let score := (mapFind activity lit).getD 0
  if scoreGt score acc.1 then (some score, [lit])
  else if scoreEq score acc.1 then (acc.1, acc.2 ++ [lit])
  else acc

/-- heuristics.py `VSIDSHeuristic.pick_decision`; float activities are
modelled as rationals and the PRNG tie-break as `chooseC`. -/
def vsidsPick (chooseC : List BoolLiteral → Nat) (varList : List String)
    (activity : List (BoolLiteral × ℚ)) (m : Model) : Option BoolLiteral :=
  let r := varList.foldl
    (fun acc v =>
      if decide (BoolLiteral.make_pos v ∈ m.assignment) ||
         decide (BoolLiteral.make_neg v ∈ m.assignment) then acc
      else
        vsidsStep activity (vsidsStep activity acc (BoolLiteral.make_pos v))
          (BoolLiteral.make_neg v))
    ((none : Option ℚ), ([] : List BoolLiteral))
  if r.2.isEmpty then none
  else some (r.2.getD (chooseC r.2 % r.2.length) ⟨"", true⟩)

/-- Python `str.strip()` on the underlying character list: drop leading and
trailing whitespace. -/
def stripChars (cs : List Char) : List Char :=
  ((cs.dropWhile Char.isWhitespace).reverse.dropWhile Char.isWhitespace).reverse

/-- Python `str.strip()`. -/
def pyStrip (s : String) : String := ⟨stripChars s.data⟩

/-- Python `str.split()` with no argument: split on whitespace runs,
emitting no empty tokens; `acc` is the (reversed) token being built. -/
def splitWSAux : List Char → List Char → List (List Char)
  | [], acc => if acc.isEmpty then [] else [acc.reverse]
  | c :: rest, acc =>
    if c.isWhitespace then
      if acc.isEmpty then splitWSAux rest [] else acc.reverse :: splitWSAux rest []
    else splitWSAux rest (c :: acc)

/-- Python `line.split()`: split on whitespace runs, no empty tokens. -/
def splitTokens (line : String) : List String :=
  (splitWSAux line.data []).map (fun cs => ⟨cs⟩)

/-- Python `str.startswith(pre)`. -/
def pyStartsWith (s pre : String) : Bool := pre.data.isPrefixOf s.data

/-- Python `tok[1:]`. -/
def pyDropOne (s : String) : String := ⟨s.data.drop 1⟩

/-- parser.py token handling: the parse state is the pair (clauses emitted
so far, current literal accumulator). -/
def parseToken (st : List Clause × List BoolLiteral) (tok : String) :
    List Clause × List BoolLiteral :=
  if tok = "0" then
    if st.2.isEmpty then st else (st.1 ++ [Clause.make st.2], [])
  else if pyStartsWith tok "-" then
    (st.1, st.2 ++ [BoolLiteral.make_neg (pyDropOne tok)])
  else (st.1, st.2 ++ [BoolLiteral.make_pos tok])

/-- One line of parser.py `parse_dimacs`: strip, skip comment / problem /
empty lines, then feed the tokens through `parseToken`. -/
def parseLine (st : List Clause × List BoolLiteral) (raw_line : String) :
    List Clause × List BoolLiteral :=
  let line := pyStrip raw_line
  if line.isEmpty || pyStartsWith line "c" || pyStartsWith line "p" then st
  else (splitTokens line).foldl parseToken st

/-- parser.py `parse_dimacs`, with the file contents given as its list of
lines; a final non-empty accumulator still becomes a clause. -/
def parse_dimacs (lines : List String) : List Clause :=
  let st := lines.foldl parseLine ([], [])
  if st.2.isEmpty then st.1 else st.1 ++ [Clause.make st.2]

/-- A store of Python list objects holding clauses, used to state the frame
property of `solve_cnf` over the caller's list object. -/
structure ListStore where
  cells : List (List Clause)
deriving DecidableEq

def ListStore.read (s : ListStore) (r : Nat) : List Clause :=
  (s.cells.get? r).getD []

def ListStore.write (s : ListStore) (r : Nat) (v : List Clause) : ListStore :=
  ⟨s.cells.set r v⟩

/-- solver.py `solve_cnf` at the level of list objects: line 84
(`State(list(clauses))`) allocates a fresh list object holding a copy of the
caller's clauses, and the only clause-list mutation during the whole solve
is `Core.learn`'s append to `state.clauses`, which is that fresh object; its
final contents are written back to its cell.  The caller's cell is never
written. -/
def solve_cnf_heap (pick : Nat → Model → Option BoolLiteral) (fuel : Nat)
    (store : ListStore) (callerRef : Nat) : ListStore × Option SolveResult :=
  let input := store.read callerRef
  let freshRef := store.cells.length
  let store1 : ListStore := ⟨store.cells ++ [input]⟩
  let r := solveLoop pick fuel 0 (Core.init (State.init input)) SolveStats.init
  (store1.write freshRef r.2.state.clauses, r.1)

/-- Claim C4's property: no literal and its complement are both assigned. -/
def Consistent (m : Model) : Prop :=
  ∀ l ∈ m.assignment, l.negate ∉ m.assignment

/-- The trail variables are pairwise distinct — the invariant that the
engine's double membership checks actually maintain. -/
def VarsNodup (m : Model) : Prop :=
  (m.assignment.map BoolLiteral.var).Nodup

/-- Trail well-formedness: distinct variables, strictly increasing decision
indices, and every decision index points into the assignment. -/
def MWF (m : Model) : Prop :=
  VarsNodup m ∧ m.decisions.Pairwise (· < ·) ∧ ∀ i ∈ m.decisions, i < m.assignment.length

/-- Loop invariant of `solveLoop`: the input clauses are still in the
database and the trail is well-formed. -/
def Inv (input : List Clause) (c : Core) : Prop :=
  (∀ cl ∈ input, cl ∈ c.state.clauses) ∧ MWF c.state.model

/-- An in-conflict engine state over the single decision x (decision level
1, conflict clause set to the singleton set of the negation of the UIP), on
which `backjump(1)` exercises the out-of-range `decisions[1]` access. -/
def cx2Core : Core :=
  { graphs := [ImplicationGraph.init, ⟨[], some [⟨"x", false⟩]⟩],
    in_conflict := true,
    state :=
      { clauses := [],
        model :=
          { assignment := [⟨"x", true⟩],
            decision_level := 1,
            decisions := [0],
            decision_levels := [(⟨"x", true⟩, 1)] },
        conflict := some ⟨[⟨"x", false⟩]⟩,
        unsat := false,
        sat := false } }

/-- An in-conflict engine state: decision x at level 1 forced y via the
clause set, the conflict clause working set is the singleton set of ¬y, and
y's parent in the graph is x.  Its current-level trail segment is [x, y]. -/
def c7xCore : Core :=
  { graphs := [ImplicationGraph.init,
      ⟨[(⟨"y", true⟩, [⟨"x", true⟩])], some [⟨"y", false⟩]⟩],
    in_conflict := true,
    state :=
      { clauses := [],
        model :=
          { assignment := [⟨"x", true⟩, ⟨"y", true⟩],
            decision_level := 1,
            decisions := [0],
            decision_levels := [(⟨"x", true⟩, 1), (⟨"y", true⟩, 1)] },
        conflict := some ⟨[⟨"y", false⟩]⟩,
        unsat := false,
        sat := false } }

/-- The decision level belonging to trail position `p`: the number of
decision indices at or before `p` (level 0 before the first decision). -/
def levelOfPos (decisions : List Nat) (p : Nat) : Int :=
  ((decisions.filter (fun i => decide (i ≤ p))).length : Int)

/-- Claim C5's property: `decision_level` equals the number of decisions,
`decision_levels` binds only literals of the trail, and every trail literal
is bound to the level of its position. -/
def TrailCoherent (m : Model) : Prop :=
  m.decision_level = (m.decisions.length : Int) ∧
  (∀ pr ∈ m.decision_levels, pr.1 ∈ m.assignment) ∧
  ∀ p, (hp : p < m.assignment.length) →
    mapFind m.decision_levels (m.assignment.get ⟨p, hp⟩) =
      some (levelOfPos m.decisions p)

/-- The part of trail coherence that survives `explain`: levels still
correct for the literals remaining on the trail, but `decision_levels` may
keep stale bindings. -/
def WeakTrailCoherent (m : Model) : Prop :=
  m.decision_level = (m.decisions.length : Int) ∧
  ∀ p, (hp : p < m.assignment.length) →
    mapFind m.decision_levels (m.assignment.get ⟨p, hp⟩) =
      some (levelOfPos m.decisions p)

instance (m : Model) : Decidable (TrailCoherent m) := by
  unfold TrailCoherent
  infer_instance

instance (m : Model) : Decidable (WeakTrailCoherent m) := by
  unfold WeakTrailCoherent
  infer_instance

/-- An in-conflict engine state whose conflict clause (the set containing
the literal x) is already present in the clause database. -/
def c6xCore : Core :=
  { graphs := [⟨[], some [⟨"x", true⟩]⟩],
    in_conflict := true,
    state :=
      { clauses := [⟨[⟨"x", true⟩]⟩],
        model := Model.init,
        conflict := some ⟨[⟨"x", true⟩]⟩,
        unsat := false,
        sat := false } }

/-- A variable free in both polarities (what the heuristics look for). -/
def freeVar (m : Model) (v : String) : Prop :=
  BoolLiteral.make_pos v ∉ m.assignment ∧ BoolLiteral.make_neg v ∉ m.assignment

instance (m : Model) (v : String) : Decidable (freeVar m v) := by
  unfold freeVar
  infer_instance

/-! ### Basic lemmas about the Python dict / set / indexing models -/

theorem mapFind_append {κ β : Type} [DecidableEq κ] (d1 d2 : List (κ × β)) (k : κ) :
    mapFind (d1 ++ d2) k =
      match mapFind d1 k with
      | some v => some v
      | none => mapFind d2 k := by
  induction d1 with
  | nil => simp [mapFind]
  | cons p rest ih =>
    obtain ⟨a, b⟩ := p
    by_cases h : a = k
    · simp [mapFind, h]
    · simp [mapFind, h, ih]

theorem mapFind_filterNe_self {κ β : Type} [DecidableEq κ] (d : List (κ × β)) (k : κ) :
    mapFind (d.filter (fun p => !decide (p.1 = k))) k = none := by
  induction d with
  | nil => simp [mapFind]
  | cons p rest ih =>
    obtain ⟨a, b⟩ := p
    by_cases h : a = k
    · simp only [List.filter_cons]
      simpa [h] using ih
    · simp only [List.filter_cons]
      simpa [mapFind, h] using ih

theorem mapFind_filterNe_ne {κ β : Type} [DecidableEq κ] (d : List (κ × β)) (k k0 : κ)
    (h : k0 ≠ k) :
    mapFind (d.filter (fun p => !decide (p.1 = k))) k0 = mapFind d k0 := by
  induction d with
  | nil => simp
  | cons p rest ih =>
    obtain ⟨a, b⟩ := p
    by_cases hp : a = k
    · have ha : a ≠ k0 := by rw [hp]; exact Ne.symm h
      have h1 : List.filter (fun p => !decide (p.1 = k)) ((a, b) :: rest)
          = List.filter (fun p => !decide (p.1 = k)) rest := by
        simp [List.filter_cons, hp]
      rw [h1, ih]
      simp [mapFind, ha]
    · have h1 : List.filter (fun p => !decide (p.1 = k)) ((a, b) :: rest)
          = (a, b) :: List.filter (fun p => !decide (p.1 = k)) rest := by
        simp [List.filter_cons, hp]
      rw [h1]
      simp [mapFind, ih]

theorem mapFind_mapStore_self {κ β : Type} [DecidableEq κ] (d : List (κ × β)) (k : κ) (v : β) :
    mapFind (mapStore d k v) k = some v := by
  unfold mapStore
  rw [mapFind_append, mapFind_filterNe_self]
  simp [mapFind]

theorem mapFind_mapStore_ne {κ β : Type} [DecidableEq κ] (d : List (κ × β)) (k k0 : κ) (v : β)
    (h : k0 ≠ k) : mapFind (mapStore d k v) k0 = mapFind d k0 := by
  unfold mapStore
  rw [mapFind_append, mapFind_filterNe_ne d k k0 h]
  match hf : mapFind d k0 with
  | some w => rfl
  | none => simp [mapFind, Ne.symm h]

theorem mapFind_mapDrop_self {κ β : Type} [DecidableEq κ] (d : List (κ × β)) (k : κ) :
    mapFind (mapDrop d k) k = none :=
  mapFind_filterNe_self d k

theorem mapFind_mapDrop_ne {κ β : Type} [DecidableEq κ] (d : List (κ × β)) (k k0 : κ)
    (h : k0 ≠ k) : mapFind (mapDrop d k) k0 = mapFind d k0 :=
  mapFind_filterNe_ne d k k0 h

theorem mem_setAdd {α : Type} [DecidableEq α] (s : List α) (a b : α) :
    b ∈ setAdd s a ↔ b ∈ s ∨ b = a := by
  by_cases h : a ∈ s
  · simp only [setAdd, if_pos h]
    constructor
    · exact Or.inl
    · rintro (hb | rfl)
      · exact hb
      · exact h
  · simp [setAdd, if_neg h]

theorem pyGet_mem {α : Type} (l : List α) (i : Int) (a : α) (h : pyGet l i = some a) :
    a ∈ l := by
  unfold pyGet at h
  split at h
  · exact List.get?_mem h
  · split at h
    · exact List.get?_mem h
    · exact absurd h (by simp)

/-- `Model.backjump` in closed form: it cuts `decisions` at some position
`pos` whose entry is the trail cut index `idx`. -/
theorem Model.backjump_eq (m : Model) (k : Int) (m1 : Model)
    (h : m.backjump k = some m1) :
    ∃ pos idx, m.decisions.get? pos = some idx ∧
      m1.assignment = m.assignment.take idx ∧
      m1.decisions = m.decisions.take pos ∧
      m1.decision_level = k ∧
      m1.decision_levels =
        (m.assignment.drop idx).foldl (fun d l => mapDrop d l) m.decision_levels := by
  unfold Model.backjump at h
  unfold pyGet at h
  by_cases h0 : 0 ≤ k
  · simp only [if_pos h0] at h
    match hg : m.decisions.get? k.toNat with
    | none => rw [hg] at h; exact absurd h (by simp)
    | some idx =>
      rw [hg] at h
      simp only [Option.some.injEq] at h
      refine ⟨k.toNat, idx, hg, ?_, ?_, ?_, ?_⟩ <;>
        simp [← h, pySliceTo, if_pos h0]
  · simp only [if_neg h0] at h
    by_cases h1 : 0 ≤ (m.decisions.length : Int) + k
    · simp only [if_pos h1] at h
      match hg : m.decisions.get? ((m.decisions.length : Int) + k).toNat with
      | none => rw [hg] at h; exact absurd h (by simp)
      | some idx =>
        rw [hg] at h
        simp only [Option.some.injEq] at h
        refine ⟨((m.decisions.length : Int) + k).toNat, idx, hg, ?_, ?_, ?_, ?_⟩ <;>
          simp [← h, pySliceTo, if_neg h0]
    · simp [if_neg h1] at h

/-! ### Literals, consistency, and the trail well-formedness invariant -/

theorem BoolLiteral.negate_negate (l : BoolLiteral) : l.negate.negate = l := by
  cases l with
  | mk v p => cases p <;> rfl

theorem BoolLiteral.negate_var (l : BoolLiteral) : l.negate.var = l.var := rfl

theorem BoolLiteral.negate_ne (l : BoolLiteral) : l.negate ≠ l := by
  cases l with
  | mk v p => cases p <;> simp [BoolLiteral.negate]

theorem BoolLiteral.eq_or_eq_negate_of_var_eq {l u : BoolLiteral} (h : l.var = u.var) :
    l = u ∨ l = u.negate := by
  cases l with
  | mk v p =>
    cases u with
    | mk w q =>
      simp only [BoolLiteral.mk.injEq] at h ⊢
      cases p <;> cases q <;> simp [BoolLiteral.negate, h]

theorem Consistent_of_VarsNodup {m : Model} (h : VarsNodup m) : Consistent m := by
  intro l hl hneg
  have := List.inj_on_of_nodup_map h hneg hl (BoolLiteral.negate_var l)
  exact BoolLiteral.negate_ne l this

theorem not_mem_of_var_fresh {asg : List BoolLiteral} {u l : BoolLiteral}
    (hn : (asg.map BoolLiteral.var).Nodup) (hl : l ∈ asg) (hvar : l.var = u.var) :
    ∀ l2 ∈ asg, l2.var = u.var → l2 = l := by
  intro l2 hl2 h2
  exact List.inj_on_of_nodup_map hn hl2 hl (h2.trans hvar.symm)

/-- Appending a literal over a fresh variable keeps the variables nodup. -/
theorem varsNodup_append {asg : List BoolLiteral} {u : BoolLiteral}
    (hn : (asg.map BoolLiteral.var).Nodup)
    (h1 : u ∉ asg) (h2 : u.negate ∉ asg) :
    ((asg ++ [u]).map BoolLiteral.var).Nodup := by
  rw [List.map_append]
  simp only [List.map_cons, List.map_nil]
  rw [List.nodup_append]
  refine ⟨hn, List.nodup_singleton _, ?_⟩
  intro v hv hv1
  simp only [List.mem_singleton] at hv1
  subst hv1
  obtain ⟨l, hl, hlv⟩ := List.mem_map.mp hv
  rcases BoolLiteral.eq_or_eq_negate_of_var_eq hlv with rfl | rfl
  · exact h1 hl
  · exact h2 (by simpa [BoolLiteral.negate_negate] using hl)

theorem MWF.assign_lit {m : Model} (h : MWF m) {u : BoolLiteral}
    (h1 : u ∉ m.assignment) (h2 : u.negate ∉ m.assignment) : MWF (m.assign u) := by
  obtain ⟨hn, hs, hb⟩ := h
  refine ⟨varsNodup_append hn h1 h2, hs, ?_⟩
  intro i hi
  simp only [Model.assign, List.length_append, List.length_cons, List.length_nil]
  exact Nat.lt_succ_of_lt (hb i hi)

theorem MWF.decide_lit {m : Model} (h : MWF m) {u : BoolLiteral}
    (h1 : u ∉ m.assignment) (h2 : u.negate ∉ m.assignment) : MWF (m.decide u) := by
  obtain ⟨hn, hs, hb⟩ := h
  refine ⟨varsNodup_append hn h1 h2, ?_, ?_⟩
  · simp only [Model.decide]
    rw [List.pairwise_append]
    refine ⟨hs, List.pairwise_singleton _ _, ?_⟩
    intro i hi j hj
    simp only [List.mem_singleton] at hj
    subst hj
    exact hb i hi
  · intro i hi
    simp only [Model.decide, List.mem_append, List.mem_singleton] at hi
    simp only [Model.decide, List.length_append, List.length_cons, List.length_nil]
    rcases hi with hi | hi
    · exact Nat.lt_succ_of_lt (hb i hi)
    · subst hi
      exact Nat.lt_succ_self _

/-- A successful `Model.backjump` keeps a strict prefix of the trail, so it
preserves well-formedness and drops the last literal's variable. -/
theorem backjump_cut {m : Model} (h : MWF m) {k : Int} {m1 : Model} {uip : BoolLiteral}
    (hbj : m.backjump k = some m1) (hu : m.get_last_literal = some uip) :
    MWF m1 ∧ uip ∉ m1.assignment ∧ uip.negate ∉ m1.assignment := by
  obtain ⟨hn, hs, hb⟩ := h
  obtain ⟨pos, idx, hget, hasg, hdec, hlvl, hmap⟩ := Model.backjump_eq m k m1 hbj
  have hidx_mem : idx ∈ m.decisions := List.get?_mem hget
  have hidx_lt : idx < m.assignment.length := hb idx hidx_mem
  obtain ⟨front, hfront⟩ := List.getLast?_eq_some_iff.mp hu
  have hfront_len : m.assignment.length = front.length + 1 := by
    rw [hfront]; simp
  have hidx_le : idx ≤ front.length := by omega
  have htake : m.assignment.take idx = front.take idx := by
    rw [hfront, List.take_append_of_le_length hidx_le]
  have hvars_front : ((front ++ [uip]).map BoolLiteral.var).Nodup := by
    rw [← hfront]; exact hn
  have huip_var : uip.var ∉ front.map BoolLiteral.var := by
    rw [List.map_append] at hvars_front
    simp only [List.map_cons, List.map_nil] at hvars_front
    rw [List.nodup_append] at hvars_front
    intro hmem
    exact hvars_front.2.2 hmem (List.mem_singleton_self _)
  have hnot_var : ∀ l ∈ m1.assignment, l.var ≠ uip.var := by
    intro l hl hvl
    rw [hasg, htake] at hl
    have hlf : l ∈ front := List.mem_of_mem_take hl
    exact huip_var (hvl ▸ List.mem_map_of_mem BoolLiteral.var hlf)
  have hm1len : m1.assignment.length = idx := by
    rw [hasg, List.length_take]
    omega
  refine ⟨⟨?_, ?_, ?_⟩, ?_, ?_⟩
  · unfold VarsNodup
    have hsub : List.Sublist m1.assignment m.assignment := by
      rw [hasg]; exact List.take_sublist idx m.assignment
    exact hn.sublist (hsub.map BoolLiteral.var)
  · rw [hdec]
    exact hs.sublist (List.take_sublist pos m.decisions)
  · intro i hi
    rw [hm1len, hdec] at *
    obtain ⟨q, hq, hqi⟩ := List.mem_iff_getElem.mp hi
    have hql : q < m.decisions.length := by
      have := List.length_take pos m.decisions
      omega
    have hqpos : q < pos := by
      have := List.length_take pos m.decisions
      omega
    have hpos_lt : pos < m.decisions.length := by
      rw [List.get?_eq_some] at hget
      exact hget.1
    have hgetpos : m.decisions[pos] = idx := by
      rw [List.get?_eq_some] at hget
      obtain ⟨hh, hv⟩ := hget
      simpa [List.get_eq_getElem] using hv
    have hlt : m.decisions[q] < m.decisions[pos] :=
      List.pairwise_iff_getElem.mp hs q pos hql hpos_lt hqpos
    have hqi2 : m.decisions[q] = i := by
      rw [← hqi, List.getElem_take]
    omega
  · intro hmem
    exact hnot_var uip hmem rfl
  · intro hmem
    exact hnot_var uip.negate hmem (BoolLiteral.negate_var uip)

theorem le_getLast_of_sorted {l : List Nat} {last : Nat} (h : l.getLast? = some last)
    (hp : l.Pairwise (· < ·)) : ∀ i ∈ l, i ≤ last := by
  obtain ⟨front, rfl⟩ := List.getLast?_eq_some_iff.mp h
  intro i hi
  rw [List.mem_append, List.mem_singleton] at hi
  rcases hi with hi | rfl
  · rw [List.pairwise_append] at hp
    exact Nat.le_of_lt (hp.2.2 i hi last (List.mem_singleton_self _))
  · exact Nat.le_refl _

/-! ### Frame facts and invariant preservation for the Core operations -/

theorem graph_concat (c : Core) (l : List ImplicationGraph) (g : ImplicationGraph)
    (h : c.graphs = l ++ [g]) : c.graph = g := by
  unfold Core.graph
  rw [h]
  exact List.getLastD_concat _ _ _

theorem propagateC_frame (core : Core) (cl : Clause) :
    (core.propagateC cl).2.state.clauses = core.state.clauses ∧
    (core.propagateC cl).2.in_conflict = core.in_conflict ∧
    (core.propagateC cl).2.state.model.decisions = core.state.model.decisions ∧
    (MWF core.state.model → MWF (core.propagateC cl).2.state.model) := by
  cases hscan : (propagateScan core.state.model cl.lits).2 with
  | none =>
    simp only [Core.propagateC, hscan]
    exact ⟨by trivial, by trivial, by trivial, fun h => h⟩
  | some u =>
    by_cases hcond : (propagateScan core.state.model cl.lits).1 = 1 ∧
        u ∉ core.state.model.assignment ∧ u.negate ∉ core.state.model.assignment
    · simp only [Core.propagateC, hscan, if_pos hcond]
      exact ⟨by trivial, by trivial, by trivial, fun h => h.assign_lit hcond.2.1 hcond.2.2⟩
    · simp only [Core.propagateC, hscan, if_neg hcond]
      exact ⟨by trivial, by trivial, by trivial, fun h => h⟩

theorem propagateC_false (core : Core) (cl : Clause)
    (h : (core.propagateC cl).1 = false) : (core.propagateC cl).2 = core := by
  cases hscan : (propagateScan core.state.model cl.lits).2 with
  | none =>
    simp only [Core.propagateC, hscan]
  | some u =>
    by_cases hcond : (propagateScan core.state.model cl.lits).1 = 1 ∧
        u ∉ core.state.model.assignment ∧ u.negate ∉ core.state.model.assignment
    · simp only [Core.propagateC, hscan, if_pos hcond] at h
      simp at h
    · simp only [Core.propagateC, hscan, if_neg hcond]

theorem conflictC_frame (core : Core) (cl : Clause) :
    (core.conflictC cl).2.state.clauses = core.state.clauses ∧
    (core.conflictC cl).2.state.model = core.state.model := by
  unfold Core.conflictC
  split
  · exact ⟨rfl, rfl⟩
  · split
    · exact ⟨rfl, rfl⟩
    · exact ⟨rfl, rfl⟩

theorem decide_frame (core : Core) (lit : BoolLiteral) :
    (core.decide lit).2.state.clauses = core.state.clauses ∧
    (core.decide lit).2.in_conflict = core.in_conflict ∧
    (MWF core.state.model → MWF (core.decide lit).2.state.model) := by
  by_cases hcond : lit ∉ core.state.model.assignment ∧
      lit.negate ∉ core.state.model.assignment
  · simp only [Core.decide, if_pos hcond]
    exact ⟨by trivial, by trivial, fun h => h.decide_lit hcond.1 hcond.2⟩
  · simp only [Core.decide, if_neg hcond]
    exact ⟨by trivial, by trivial, fun h => h⟩

theorem fail_frame (core : Core) :
    (core.fail).2.state.clauses = core.state.clauses ∧
    (core.fail).2.state.model = core.state.model := by
  unfold Core.fail
  split
  · exact ⟨rfl, rfl⟩
  · exact ⟨rfl, rfl⟩

theorem learn_frame (core : Core) :
    ((core.learn).2.state.clauses = core.state.clauses ∨
      ∃ cl, (core.learn).2.state.clauses = core.state.clauses ++ [cl]) ∧
    (core.learn).2.state.model = core.state.model ∧
    (core.learn).2.in_conflict = core.in_conflict ∧
    (core.learn).2.graphs = core.graphs := by
  cases hcc : core.graph.conflict_clause with
  | none =>
    simp only [Core.learn, hcc]
    exact ⟨Or.inl (by trivial), by trivial, by trivial, by trivial⟩
  | some cc =>
    by_cases hel : clauseElem (Clause.make cc) core.state.clauses = true
    · refine ⟨Or.inl ?_, ?_, ?_, ?_⟩ <;> simp [Core.learn, hcc, hel]
    · refine ⟨Or.inr ⟨Clause.make cc, ?_⟩, ?_, ?_, ?_⟩ <;> simp [Core.learn, hcc, hel]

theorem explainPop_facts (core c1 : Core) (h : explainPop core = some c1) :
    c1.state.model.assignment = core.state.model.assignment.dropLast ∧
    c1.state.model.decisions = core.state.model.decisions ∧
    c1.state.model.decision_level = core.state.model.decision_level ∧
    c1.state.model.decision_levels = core.state.model.decision_levels ∧
    c1.state.clauses = core.state.clauses ∧
    c1.in_conflict = core.in_conflict ∧
    core.state.model.assignment ≠ [] := by
  unfold explainPop at h
  split at h
  · exact absurd h (by simp)
  · next last hlast =>
    simp only [Option.some.injEq] at h
    subst h
    refine ⟨rfl, rfl, rfl, rfl, rfl, rfl, ?_⟩
    intro hnil
    rw [hnil] at hlast
    simp at hlast

theorem explainGo_facts : ∀ (n : Nat) (core c1 : Core), explainGo core n = some c1 →
    c1.state.model.assignment =
      core.state.model.assignment.take (core.state.model.assignment.length - (n - 1)) ∧
    c1.state.model.decisions = core.state.model.decisions ∧
    c1.state.model.decision_level = core.state.model.decision_level ∧
    c1.state.model.decision_levels = core.state.model.decision_levels ∧
    c1.state.clauses = core.state.clauses ∧
    c1.in_conflict = core.in_conflict ∧
    (n ≤ 1 ∨ n - 1 ≤ core.state.model.assignment.length)
  | 0, core, c1, h => by
    simp only [explainGo, Option.some.injEq] at h
    subst h
    simp [List.take_length]
  | 1, core, c1, h => by
    simp only [explainGo, Option.some.injEq] at h
    subst h
    simp [List.take_length]
  | n + 2, core, c1, h => by
    rw [explainGo] at h
    split at h
    · exact absurd h (by simp)
    · next cmid hpop =>
      obtain ⟨ha, hd, hl, hm, hc, hf, hne⟩ := explainPop_facts core cmid hpop
      obtain ⟨ha2, hd2, hl2, hm2, hc2, hf2, hb2⟩ := explainGo_facts (n + 1) cmid c1 h
      have hlen : core.state.model.assignment.length ≥ 1 := by
        cases hasg : core.state.model.assignment with
        | nil => exact absurd hasg hne
        | cons x xs => simp [hasg]
      have hmidlen : cmid.state.model.assignment.length =
          core.state.model.assignment.length - 1 := by
        rw [ha, List.length_dropLast]
      refine ⟨?_, hd2.trans hd, hl2.trans hl, hm2.trans hm, hc2.trans hc, hf2.trans hf, ?_⟩
      · rw [ha2, hmidlen, ha, List.dropLast_eq_take, List.take_take]
        congr 1
        omega
      · right
        rcases hb2 with hb2 | hb2
        · omega
        · rw [hmidlen] at hb2
          omega

theorem MWF_explain {core c1 : Core} {b : Bool}
    (h : MWF core.state.model) (he : Core.explain core = some (b, c1)) :
    MWF c1.state.model ∧ c1.state.clauses = core.state.clauses ∧
    c1.state.model.decisions = core.state.model.decisions ∧
    c1.in_conflict = core.in_conflict := by
  obtain ⟨hn, hs, hb⟩ := h
  unfold Core.explain at he
  cases hgo : explainGo core core.state.model.get_current_decision_literals.length with
  | none => rw [hgo] at he; exact absurd he (by simp)
  | some cmid =>
    rw [hgo] at he
    simp only [Option.map_some', Option.some.injEq, Prod.mk.injEq] at he
    obtain ⟨hb1, hc1⟩ := he
    subst hc1
    obtain ⟨ha, hd, hl, hm, hc, hf, hbound⟩ := explainGo_facts _ core cmid hgo
    refine ⟨⟨?_, ?_, ?_⟩, hc, hd, hf⟩
    · unfold VarsNodup
      rw [ha]
      exact hn.sublist ((List.take_sublist _ _).map BoolLiteral.var)
    · rw [hd]; exact hs
    · intro i hi
      rw [hd] at hi
      rw [ha, List.length_take]
      cases hlast : core.state.model.decisions.getLast? with
      | none =>
        rw [List.getLast?_eq_none_iff] at hlast
        rw [hlast] at hi
        exact absurd hi (by simp)
      | some last =>
        have hlast_mem : last ∈ core.state.model.decisions :=
          List.mem_of_mem_getLast? hlast
        have hlast_lt : last < core.state.model.assignment.length := hb last hlast_mem
        have hseg : core.state.model.get_current_decision_literals.length =
            core.state.model.assignment.length - last := by
          unfold Model.get_current_decision_literals
          rw [hlast]
          simp
        have hile : i ≤ last := le_getLast_of_sorted hlast hs i hi
        rw [hseg]
        omega

theorem backjump_some_MWF {core : Core} {k : Int} {b : Bool} {c1 : Core}
    (h : MWF core.state.model) (hbj : Core.backjump core k = some (b, c1)) :
    MWF c1.state.model ∧ c1.state.clauses = core.state.clauses := by
  unfold Core.backjump at hbj
  cases hic : core.in_conflict with
  | false =>
    simp only [hic, Bool.not_false, if_true, Option.some.injEq, Prod.mk.injEq] at hbj
    rw [← hbj.2]
    exact ⟨h, rfl⟩
  | true =>
    simp only [hic, Bool.not_true, Bool.false_eq_true, if_false] at hbj
    cases hcc : core.graph.conflict_clause with
    | none =>
      simp only [hcc, Option.some.injEq, Prod.mk.injEq] at hbj
      rw [← hbj.2]
      exact ⟨h, rfl⟩
    | some cc =>
      simp only [hcc] at hbj
      cases hu : core.state.model.get_last_literal with
      | none =>
        simp only [hu] at hbj
        exact absurd hbj (by simp)
      | some uip =>
        simp only [hu] at hbj
        by_cases hak : assertingLevel core.state.model cc uip ≤ k
        · rw [if_pos hak] at hbj
          cases hmb : core.state.model.backjump k with
          | none =>
            simp only [hmb] at hbj
            exact absurd hbj (by simp)
          | some m1 =>
            simp only [hmb] at hbj
            by_cases hgs : (pySliceTo core.graphs (k + 1)).isEmpty
            · rw [if_pos hgs] at hbj
              exact absurd hbj (by simp)
            · rw [if_neg hgs] at hbj
              simp only [Option.some.injEq, Prod.mk.injEq] at hbj
              obtain ⟨hb1, hc1⟩ := hbj
              subst hc1
              obtain ⟨hm1, hni1, hni2⟩ := backjump_cut h hmb hu
              refine ⟨?_, rfl⟩
              refine hm1.assign_lit hni2 ?_
              rw [BoolLiteral.negate_negate]
              exact hni1
        · rw [if_neg hak] at hbj
          simp only [Option.some.injEq, Prod.mk.injEq] at hbj
          rw [← hbj.2]
          exact ⟨h, rfl⟩

/-! ### The driver loop invariant for the satisfiability round-trip -/

theorem Inv_sweep (input : List Clause) :
    ∀ (cls : List Clause) (core : Core) (stats : SolveStats) (ch : Bool),
      Inv input core → Inv input (sweep cls core stats ch).1
  | [], core, stats, ch, h => h
  | cl :: rest, core, stats, ch, h => by
    obtain ⟨hdb, hm⟩ := h
    rw [sweep]
    obtain ⟨hcc, hcm⟩ := conflictC_frame core cl
    have hInv1 : Inv input (core.conflictC cl).2 :=
      ⟨fun c hc => hcc ▸ hdb c hc, hcm ▸ hm⟩
    cases hfire : (core.conflictC cl).1 with
    | true => simpa [hfire] using hInv1
    | false =>
      simp only [hfire, Bool.false_eq_true, if_false]
      obtain ⟨hpc, _, _, hpm⟩ := propagateC_frame (core.conflictC cl).2 cl
      have hInv2 : Inv input ((core.conflictC cl).2.propagateC cl).2 :=
        ⟨fun c hc => hpc ▸ hInv1.1 c hc, hpm hInv1.2⟩
      cases hp : ((core.conflictC cl).2.propagateC cl).1 with
      | true =>
        simp only [hp, if_true]
        exact Inv_sweep input rest _ _ _ hInv2
      | false =>
        simp only [hp, Bool.false_eq_true, if_false]
        exact Inv_sweep input rest _ _ _ hInv2

theorem Inv_upa (input : List Clause) :
    ∀ (fuel : Nat) (core : Core) (stats : SolveStats),
      Inv input core → Inv input (unit_propagate_all fuel core stats).1
  | 0, core, stats, h => h
  | fuel + 1, core, stats, h => by
    rw [unit_propagate_all]
    cases hic : core.in_conflict with
    | true => simpa [hic] using h
    | false =>
      simp only [hic, Bool.false_eq_true, if_false]
      have h1 := Inv_sweep input core.state.clauses core stats false h
      cases hch : (sweep core.state.clauses core stats false).2.2 with
      | true =>
        simp only [hch, if_true]
        exact Inv_upa input fuel _ _ h1
      | false =>
        simpa [hch] using h1

theorem Inv_fail (input : List Clause) (core : Core) (h : Inv input core) :
    Inv input (core.fail).2 := by
  obtain ⟨hc, hm⟩ := fail_frame core
  exact ⟨fun c hcl => hc ▸ h.1 c hcl, hm ▸ h.2⟩

theorem Inv_explain (input : List Clause) {core c1 : Core} {b : Bool} (h : Inv input core)
    (he : Core.explain core = some (b, c1)) : Inv input c1 := by
  obtain ⟨hm, hc, _, _⟩ := MWF_explain h.2 he
  exact ⟨fun c hcl => hc ▸ h.1 c hcl, hm⟩

theorem Inv_handleLearn (input : List Clause) (core : Core) (stats : SolveStats)
    (h : Inv input core) : Inv input (handleLearn core stats).1 := by
  obtain ⟨hdb, hm, _, _⟩ := learn_frame core
  have hsub : ∀ c ∈ input, c ∈ (core.learn).2.state.clauses := by
    intro c hcl
    rcases hdb with hdb | ⟨cl2, hdb⟩
    · exact hdb ▸ h.1 c hcl
    · rw [hdb, List.mem_append]
      exact Or.inl (h.1 c hcl)
  have hInv : Inv input (core.learn).2 := ⟨hsub, hm ▸ h.2⟩
  unfold handleLearn
  cases hl : (core.learn).1 with
  | none => simpa [hl] using hInv
  | some cl => simpa [hl] using hInv

theorem Inv_backjump (input : List Clause) {core c1 : Core} {k : Int} {b : Bool}
    (h : Inv input core) (hbj : Core.backjump core k = some (b, c1)) : Inv input c1 := by
  obtain ⟨hm, hc⟩ := backjump_some_MWF h.2 hbj
  exact ⟨fun c hcl => hc ▸ h.1 c hcl, hm⟩

theorem Inv_decide (input : List Clause) (core : Core) (lit : BoolLiteral)
    (h : Inv input core) : Inv input (core.decide lit).2 := by
  obtain ⟨hc, _, hm⟩ := decide_frame core lit
  exact ⟨fun c hcl => hc ▸ h.1 c hcl, hm h.2⟩

/-! ### Reading the SAT assignment back -/

theorem foldl_store_find_fresh (asg : List BoolLiteral) (d : List (String × Bool))
    (v : String) (hfresh : ∀ l ∈ asg, l.var ≠ v) :
    mapFind (asg.foldl (fun out lit => mapStore out lit.var lit.polarity) d) v =
      mapFind d v := by
  induction asg generalizing d with
  | nil => rfl
  | cons a rest ih =>
    simp only [List.foldl_cons]
    rw [ih _ (fun l hl => hfresh l (List.mem_cons_of_mem a hl)),
      mapFind_mapStore_ne _ _ _ _ (Ne.symm (hfresh a (List.mem_cons_self a rest)))]

theorem foldl_store_find_mem (asg : List BoolLiteral) (d : List (String × Bool))
    (l : BoolLiteral) (hl : l ∈ asg) (hn : (asg.map BoolLiteral.var).Nodup) :
    mapFind (asg.foldl (fun out lit => mapStore out lit.var lit.polarity) d) l.var =
      some l.polarity := by
  induction asg generalizing d with
  | nil => exact absurd hl (List.not_mem_nil l)
  | cons a rest ih =>
    simp only [List.map_cons, List.nodup_cons] at hn
    rcases List.mem_cons.mp hl with rfl | hl2
    · simp only [List.foldl_cons]
      rw [foldl_store_find_fresh rest _ l.var ?_, mapFind_mapStore_self]
      intro l2 hl2 hv
      exact hn.1 (hv ▸ List.mem_map_of_mem BoolLiteral.var hl2)
    · simp only [List.foldl_cons]
      exact ih _ hl2 hn.2

theorem assignment_dict_find {st : State} (hn : VarsNodup st.model) {l : BoolLiteral}
    (hl : l ∈ st.model.assignment) :
    mapFind (assignment_dict st) l.var = some l.polarity :=
  foldl_store_find_mem _ _ l hl hn

theorem formula_sat_spec {st : State} (h : is_formula_satisfied st = true) :
    ∀ cl ∈ st.clauses, ∃ l ∈ cl.lits, l ∈ st.model.assignment := by
  intro cl hcl
  unfold is_formula_satisfied at h
  rw [List.all_eq_true] at h
  have := h cl hcl
  unfold is_clause_satisfied at this
  rw [List.any_eq_true] at this
  obtain ⟨l, hl, hmem⟩ := this
  exact ⟨l, hl, of_decide_eq_true hmem⟩

theorem solveLoop_SAT_inv (pick : Nat → Model → Option BoolLiteral) (input : List Clause) :
    ∀ (fuel picks : Nat) (core : Core) (stats : SolveStats) (r : SolveResult),
      Inv input core →
      (solveLoop pick fuel picks core stats).1 = some r →
      r.status = "SAT" →
      ∀ cl ∈ input, ∃ l ∈ cl.lits, mapFind r.assignment l.var = some l.polarity := by
  intro fuel
  induction fuel with
  | zero =>
    intro picks core stats r hInv hr hs
    simp only [solveLoop, Option.some.injEq] at hr
    rw [← hr] at hs
    simp at hs
  | succ fuel ih =>
    intro picks core stats r hInv hr hs
    simp only [solveLoop] at hr
    have hInv0 : Inv input (unit_propagate_all (fuel + 1) core stats).1 :=
      Inv_upa input (fuel + 1) core stats hInv
    cases hic : (unit_propagate_all (fuel + 1) core stats).1.in_conflict with
    | true =>
      simp only [hic, if_true] at hr
      have hInvF : Inv input ((unit_propagate_all (fuel + 1) core stats).1.fail).2 :=
        Inv_fail input _ hInv0
      cases hfail : ((unit_propagate_all (fuel + 1) core stats).1.fail).1 with
      | true =>
        simp only [hfail, if_true, Option.some.injEq] at hr
        rw [← hr] at hs
        simp at hs
      | false =>
        simp only [hfail, Bool.false_eq_true, if_false] at hr
        cases hex : Core.explain ((unit_propagate_all (fuel + 1) core stats).1.fail).2 with
        | none =>
          simp only [hex] at hr
          exact absurd hr (by simp)
        | some re =>
          obtain ⟨b1, c1⟩ := re
          simp only [hex] at hr
          have hInv1 : Inv input c1 := Inv_explain input hInvF hex
          have hInvL : Inv input
              (handleLearn c1 (unit_propagate_all (fuel + 1) core stats).2).1 :=
            Inv_handleLearn input c1 _ hInv1
          cases hbl : compute_backjump_level
              (handleLearn c1 (unit_propagate_all (fuel + 1) core stats).2).1 with
          | none =>
            simp only [hbl] at hr
            exact absurd hr (by simp)
          | some bj =>
            simp only [hbl] at hr
            cases hbj2 : Core.backjump
                (handleLearn c1 (unit_propagate_all (fuel + 1) core stats).2).1 bj with
            | none =>
              simp only [hbj2] at hr
              exact absurd hr (by simp)
            | some rb =>
              obtain ⟨b2, c2⟩ := rb
              simp only [hbj2] at hr
              exact ih _ c2 _ r (Inv_backjump input hInvL hbj2) hr hs
    | false =>
      simp only [hic, Bool.false_eq_true, if_false] at hr
      cases hsat : is_formula_satisfied (unit_propagate_all (fuel + 1) core stats).1.state with
      | true =>
        simp only [hsat, if_true, Option.some.injEq] at hr
        intro cl hcl
        have hcl2 : cl ∈ (unit_propagate_all (fuel + 1) core stats).1.state.clauses :=
          hInv0.1 cl hcl
        obtain ⟨l, hl, hmem⟩ := formula_sat_spec hsat cl hcl2
        refine ⟨l, hl, ?_⟩
        rw [← hr]
        exact assignment_dict_find hInv0.2.1 hmem
      | false =>
        simp only [hsat, Bool.false_eq_true, if_false] at hr
        cases hpick : pick picks (unit_propagate_all (fuel + 1) core stats).1.state.model with
        | none =>
          simp only [hpick, Option.some.injEq] at hr
          rw [← hr] at hs
          simp at hs
        | some lit =>
          simp only [hpick] at hr
          have hInvD : Inv input ((unit_propagate_all (fuel + 1) core stats).1.decide lit).2 :=
            Inv_decide input _ lit hInv0
          cases hd : ((unit_propagate_all (fuel + 1) core stats).1.decide lit).1 with
          | true =>
            simp only [hd, if_true] at hr
            exact ih _ _ _ r hInvD hr hs
          | false =>
            simp only [hd, Bool.false_eq_true, if_false] at hr
            exact ih _ _ _ r hInvD hr hs

/-! ### Claim C1 -/

/-- C1 (satisfiability round-trip): if `solve_cnf` returns a result with
status SAT, then for every clause of the input clause list there is some
literal `l` of that clause such that the returned assignment maps `l`'s
variable to `l`'s polarity. -/
theorem C1_satisfiability_round_trip
    (pick : Nat → Model → Option BoolLiteral) (fuel : Nat) (input : List Clause)
    (r : SolveResult) (h : (solve_cnf pick fuel input).1 = some r)
    (hs : r.status = "SAT") :
    ∀ cl ∈ input, ∃ l ∈ cl.lits, mapFind r.assignment l.var = some l.polarity := by
  apply solveLoop_SAT_inv pick input fuel 0 _ _ r _ h hs
  exact ⟨fun c hc => hc, List.nodup_nil, List.Pairwise.nil, fun i hi => absurd hi (List.not_mem_nil i)⟩

/-- Witness for C1 at a concrete run: the unit clause (x) solves to SAT with
assignment x = true. -/
theorem C1_witness :
    ∃ l ∈ (Clause.make [⟨"x", true⟩]).lits,
      mapFind (SolveResult.assignment ⟨"SAT", ⟨0, 0, 0, 1⟩, [("x", true)]⟩) l.var =
        some l.polarity :=
  C1_satisfiability_round_trip (fun _ _ => none) 10 [Clause.make [⟨"x", true⟩]]
    ⟨"SAT", ⟨0, 0, 0, 1⟩, [("x", true)]⟩ (by decide) (by decide)
    (Clause.make [⟨"x", true⟩]) (by decide)

/-! ### Graph lemmas for the propagation contract -/

theorem getParents_add_edge_self (g : ImplicationGraph) (s t : BoolLiteral) :
    (g.add_edge s t).getParents t = setAdd (g.getParents t) s := by
  unfold ImplicationGraph.add_edge ImplicationGraph.getParents
  rw [mapFind_mapStore_self]
  rfl

theorem getParents_add_edge_ne (g : ImplicationGraph) (s t n : BoolLiteral)
    (h : n ≠ t) : (g.add_edge s t).getParents n = g.getParents n := by
  unfold ImplicationGraph.add_edge ImplicationGraph.getParents
  rw [mapFind_mapStore_ne _ _ _ _ h]

theorem getParents_add_node (g : ImplicationGraph) (u n : BoolLiteral) :
    (g.add_node u).getParents n = g.getParents n := by
  unfold ImplicationGraph.add_node
  cases hn : g.hasNode u with
  | true => simp [hn]
  | false =>
    simp only [hn, Bool.false_eq_true, if_false]
    unfold ImplicationGraph.getParents
    rw [mapFind_append]
    cases hf : mapFind g.edges n with
    | some parents => rfl
    | none =>
      by_cases hun : u = n
      · subst hun
        simp [mapFind]
      · simp [mapFind, hun]

theorem hasNode_add_node_self (g : ImplicationGraph) (u : BoolLiteral) :
    (g.add_node u).hasNode u = true := by
  unfold ImplicationGraph.add_node
  cases hn : g.hasNode u with
  | true => simp [hn]
  | false =>
    simp only [hn, Bool.false_eq_true, if_false]
    unfold ImplicationGraph.hasNode at *
    rw [mapFind_append]
    cases hf : mapFind g.edges u with
    | some parents => rw [hf] at hn; simp at hn
    | none => simp [mapFind]

theorem hasNode_add_edge_mono (g : ImplicationGraph) (s t n : BoolLiteral)
    (h : g.hasNode n = true) : (g.add_edge s t).hasNode n = true := by
  unfold ImplicationGraph.add_edge ImplicationGraph.hasNode at *
  by_cases hnt : n = t
  · subst hnt
    rw [mapFind_mapStore_self]
    rfl
  · rw [mapFind_mapStore_ne _ _ _ _ hnt]
    exact h

theorem foldl_add_edge_getParents (ms : List BoolLiteral) (u : BoolLiteral) :
    ∀ (g : ImplicationGraph) (p : BoolLiteral),
      p ∈ (ms.foldl (fun g mm => g.add_edge mm.negate u) g).getParents u ↔
        p ∈ g.getParents u ∨ ∃ mm ∈ ms, p = mm.negate := by
  induction ms with
  | nil => simp
  | cons a rest ih =>
    intro g p
    simp only [List.foldl_cons]
    rw [ih, getParents_add_edge_self, mem_setAdd]
    constructor
    · rintro ((hp | hp) | ⟨mm, hmm, rfl⟩)
      · exact Or.inl hp
      · exact Or.inr ⟨a, List.mem_cons_self a rest, hp⟩
      · exact Or.inr ⟨mm, List.mem_cons_of_mem a hmm, rfl⟩
    · rintro (hp | ⟨mm, hmm, rfl⟩)
      · exact Or.inl (Or.inl hp)
      · rcases List.mem_cons.mp hmm with rfl | hmm2
        · exact Or.inl (Or.inr rfl)
        · exact Or.inr ⟨mm, hmm2, rfl⟩

theorem foldl_add_edge_hasNode (ms : List BoolLiteral) (u : BoolLiteral) :
    ∀ g : ImplicationGraph, g.hasNode u = true →
      (ms.foldl (fun g mm => g.add_edge mm.negate u) g).hasNode u = true := by
  induction ms with
  | nil => exact fun g h => h
  | cons a rest ih =>
    intro g h
    exact ih _ (hasNode_add_edge_mono _ _ _ _ h)

/-- The single-pass scan of `Core.propagate` computes the number of
non-falsified literals and the last of them. -/
theorem propagateScan_go (m : Model) :
    ∀ (lits : List BoolLiteral) (acc : Nat × Option BoolLiteral),
      lits.foldl (fun acc l => if l.negate ∈ m.assignment then acc else (acc.1 + 1, some l))
          acc =
        (acc.1 + (lits.filter (fun l => !decide (l.negate ∈ m.assignment))).length,
          match (lits.filter (fun l => !decide (l.negate ∈ m.assignment))).getLast? with
          | some u => some u
          | none => acc.2) := by
  intro lits
  induction lits with
  | nil => intro acc; simp
  | cons a rest ih =>
    intro acc
    simp only [List.foldl_cons, List.filter_cons]
    by_cases hmem : a.negate ∈ m.assignment
    · rw [if_pos hmem, ih]
      simp [hmem]
    · rw [if_neg hmem, ih]
      simp only [hmem, decide_False, Bool.not_false, if_true]
      refine Prod.ext ?_ ?_
      · simp only [List.length_cons]
        omega
      · cases hl : (rest.filter (fun l => !decide (l.negate ∈ m.assignment))).getLast? with
        | some u =>
          obtain ⟨front, hf⟩ := List.getLast?_eq_some_iff.mp hl
          rw [hf]
          have : (a :: (front ++ [u])).getLast? = some u := by
            rw [show a :: (front ++ [u]) = (a :: front) ++ [u] from rfl]
            exact List.getLast?_concat _
          simp [this]
        | none =>
          rw [List.getLast?_eq_none_iff] at hl
          rw [hl]
          simp

theorem propagateScan_eq (m : Model) (lits : List BoolLiteral) :
    propagateScan m lits =
      ((lits.filter (fun l => !decide (l.negate ∈ m.assignment))).length,
        (lits.filter (fun l => !decide (l.negate ∈ m.assignment))).getLast?) := by
  unfold propagateScan
  rw [propagateScan_go]
  cases hl : (lits.filter (fun l => !decide (l.negate ∈ m.assignment))).getLast? with
  | some u => simp
  | none => simp

/-! ### Claim C3 -/

/-- C3 (propagation): with a valid clause index `i`, `propagate(i)` returns
true iff exactly one literal `l` of clause `i` has its complement not in
the model and `l` itself is not in the model (the unique survivor of the
scan's filter); when it fires, `l` is appended to the trail with its level
recorded as the current decision level, `l` becomes a node of the active
graph, and `l`'s parents gain exactly the negations of the other literals
of the clause; when it does not fire the engine state is unchanged. -/
theorem C3_propagate_spec (core : Core) (idx : Nat) (c : Clause)
    (hc : core.state.clauses.get? idx = some c) :
    ((Core.propagate core idx).map (fun p => p.1) = some true ↔
      ∃ l, c.lits.filter
          (fun x => !decide (x.negate ∈ core.state.model.assignment)) = [l] ∧
        l ∉ core.state.model.assignment) ∧
    (∀ l c1, c.lits.filter
          (fun x => !decide (x.negate ∈ core.state.model.assignment)) = [l] →
      Core.propagate core idx = some (true, c1) →
      c1.state.model.assignment = core.state.model.assignment ++ [l] ∧
      mapFind c1.state.model.decision_levels l =
        some core.state.model.decision_level ∧
      c1.graph.hasNode l = true ∧
      (∀ p, p ∈ c1.graph.getParents l ↔
        p ∈ core.graph.getParents l ∨ ∃ mm ∈ c.lits, mm ≠ l ∧ p = mm.negate) ∧
      c1.state.clauses = core.state.clauses ∧
      c1.in_conflict = core.in_conflict) ∧
    ((Core.propagate core idx).map (fun p => p.1) = some false →
      Core.propagate core idx = some (false, core)) := by
  have hprop : Core.propagate core idx = some (core.propagateC c) := by
    unfold Core.propagate
    rw [hc]
    rfl
  have hscan := propagateScan_eq core.state.model c.lits
  cases hF : c.lits.filter (fun x => !decide (x.negate ∈ core.state.model.assignment)) with
  | nil =>
    have hpc : core.propagateC c = (false, core) := by
      simp only [Core.propagateC, hscan, hF]
      rfl
    refine ⟨?_, ?_, ?_⟩
    · rw [hprop, hpc]
      simp
    · intro l c1 hFl
      exact absurd hFl (by simp)
    · intro h
      rw [hprop, hpc]
  | cons l1 tail =>
    have hl1F : l1 ∈ c.lits.filter
        (fun x => !decide (x.negate ∈ core.state.model.assignment)) := by
      rw [hF]
      exact List.mem_cons_self l1 tail
    have hl1c : l1 ∈ c.lits ∧ l1.negate ∉ core.state.model.assignment := by
      rw [List.mem_filter] at hl1F
      refine ⟨hl1F.1, ?_⟩
      have := hl1F.2
      simp only [Bool.not_eq_true', decide_eq_false_iff_not] at this
      exact this
    cases tail with
    | nil =>
      by_cases hl1 : l1 ∈ core.state.model.assignment
      · have hpc : core.propagateC c = (false, core) := by
          simp only [Core.propagateC, hscan, hF]
          show (if [l1].length = 1 ∧ l1 ∉ core.state.model.assignment ∧
              l1.negate ∉ core.state.model.assignment then _
            else ((false, core) : Bool × Core)) = (false, core)
          rw [if_neg (fun hcond => hcond.2.1 hl1)]
        refine ⟨?_, ?_, ?_⟩
        · rw [hprop, hpc]
          simp only [Option.map_some', Option.some.injEq]
          constructor
          · intro h
            exact absurd h (by simp)
          · rintro ⟨l, hFl, hnl⟩
            rw [List.cons.injEq] at hFl
            exact absurd (hFl.1 ▸ hnl) (fun hh => hh hl1)
        · intro l c1 hFl hpr
          rw [hprop, hpc] at hpr
          simp at hpr
        · intro h
          rw [hprop, hpc]
      · have hpc : core.propagateC c = (true,
            { core with
              graphs := core.graphs.dropLast ++
                [(c.lits.filter (fun x => !decide (x = l1))).foldl
                  (fun g mm => g.add_edge mm.negate l1) (core.graph.add_node l1)],
              state := { core.state with
                         model := core.state.model.assign l1 } }) := by
          simp only [Core.propagateC, hscan, hF]
          show (if [l1].length = 1 ∧ l1 ∉ core.state.model.assignment ∧
              l1.negate ∉ core.state.model.assignment then _
            else ((false, core) : Bool × Core)) = _
          rw [if_pos ⟨by simp, hl1, hl1c.2⟩]
          rfl
        refine ⟨?_, ?_, ?_⟩
        · rw [hprop, hpc]
          simp only [Option.map_some', Option.some.injEq]
          exact iff_of_true (by trivial) ⟨l1, rfl, hl1⟩
        · intro l c1 hFl hpr
          rw [List.cons.injEq] at hFl
          obtain ⟨hFl1, -⟩ := hFl
          subst hFl1
          rw [hprop, hpc] at hpr
          simp only [Option.some.injEq, Prod.mk.injEq, true_and] at hpr
          subst hpr
          have hg : Core.graph
              { core with
                graphs := core.graphs.dropLast ++
                  [(c.lits.filter (fun x => !decide (x = l1))).foldl
                    (fun g mm => g.add_edge mm.negate l1) (core.graph.add_node l1)],
                state := { core.state with
                           model := core.state.model.assign l1 } } =
              (c.lits.filter (fun x => !decide (x = l1))).foldl
                (fun g mm => g.add_edge mm.negate l1) (core.graph.add_node l1) :=
            graph_concat _ core.graphs.dropLast _ rfl
          refine ⟨rfl, mapFind_mapStore_self _ _ _, ?_, ?_, rfl, rfl⟩
          · rw [hg]
            exact foldl_add_edge_hasNode _ _ _ (hasNode_add_node_self _ _)
          · intro p
            rw [hg, foldl_add_edge_getParents, getParents_add_node]
            simp only [List.mem_filter, Bool.not_eq_true', decide_eq_false_iff_not]
            constructor
            · rintro (hp | ⟨mm, ⟨hmm, hne⟩, rfl⟩)
              · exact Or.inl hp
              · exact Or.inr ⟨mm, hmm, hne, rfl⟩
            · rintro (hp | ⟨mm, hmm, hne, rfl⟩)
              · exact Or.inl hp
              · exact Or.inr ⟨mm, ⟨hmm, hne⟩, rfl⟩
        · intro h
          rw [hprop, hpc] at h
          simp at h
    | cons l2 t2 =>
      have hpc : core.propagateC c = (false, core) := by
        cases hlast : (l1 :: l2 :: t2).getLast? with
        | none =>
          rw [List.getLast?_eq_none_iff] at hlast
          simp at hlast
        | some u =>
          simp only [Core.propagateC, hscan, hF, hlast]
          rw [if_neg (fun hcond => absurd hcond.1 (by simp))]
      refine ⟨?_, ?_, ?_⟩
      · rw [hprop, hpc]
        simp
      · intro l c1 hFl
        exact absurd hFl (by simp)
      · intro h
        rw [hprop, hpc]

/-- Witness for C3: in the freshly initialised engine on the unit clause
(x), `propagate(0)` fires. -/
theorem C3_witness :
    (Core.propagate (Core.init (State.init [Clause.make [⟨"x", true⟩]])) 0).map
      (fun p => p.1) = some true :=
  (C3_propagate_spec (Core.init (State.init [Clause.make [⟨"x", true⟩]])) 0
    (Clause.make [⟨"x", true⟩]) (by decide)).1.mpr
    ⟨⟨"x", true⟩, by decide, by decide⟩

/-! ### Claim C4 -/

/-- C4 (model consistency): starting from a well-formed trail (the invariant
the engine's membership checks maintain, satisfied by the initial state),
after any rule-engine operation returns — propagate, decide, conflict,
explain, backjump, fail, learn — no literal and its negation are both in
the model's assignment. -/
theorem C4_model_consistency (core : Core) (h : MWF core.state.model) :
    (∀ idx b c1, Core.propagate core idx = some (b, c1) →
      Consistent c1.state.model) ∧
    (∀ lit, Consistent ((Core.decide core lit).2).state.model) ∧
    (∀ idx b c1, Core.conflict core idx = some (b, c1) →
      Consistent c1.state.model) ∧
    (∀ b c1, Core.explain core = some (b, c1) → Consistent c1.state.model) ∧
    (∀ k b c1, Core.backjump core k = some (b, c1) → Consistent c1.state.model) ∧
    Consistent ((Core.fail core).2).state.model ∧
    Consistent ((Core.learn core).2).state.model := by
  refine ⟨?_, ?_, ?_, ?_, ?_, ?_, ?_⟩
  · intro idx b c1 hp
    unfold Core.propagate at hp
    cases hg : core.state.clauses.get? idx with
    | none => rw [hg] at hp; exact absurd hp (by simp)
    | some c =>
      rw [hg] at hp
      simp only [Option.map_some', Option.some.injEq] at hp
      have hm := (propagateC_frame core c).2.2.2 h
      rw [hp] at hm
      exact Consistent_of_VarsNodup hm.1
  · intro lit
    have hm := (decide_frame core lit).2.2 h
    exact Consistent_of_VarsNodup hm.1
  · intro idx b c1 hp
    unfold Core.conflict at hp
    cases hg : core.state.clauses.get? idx with
    | none => rw [hg] at hp; exact absurd hp (by simp)
    | some c =>
      rw [hg] at hp
      simp only [Option.map_some', Option.some.injEq] at hp
      have hm := (conflictC_frame core c).2
      rw [hp] at hm
      rw [show c1.state.model = core.state.model from hm]
      exact Consistent_of_VarsNodup h.1
  · intro b c1 he
    exact Consistent_of_VarsNodup (MWF_explain h he).1.1
  · intro k b c1 hbj
    exact Consistent_of_VarsNodup (backjump_some_MWF h hbj).1.1
  · have hm := (fail_frame core).2
    rw [hm]
    exact Consistent_of_VarsNodup h.1
  · have hm := (learn_frame core).2.1
    rw [hm]
    exact Consistent_of_VarsNodup h.1

/-- Witness for C4: a decision on the freshly initialised engine leaves a
consistent model. -/
theorem C4_witness :
    Consistent ((Core.decide (Core.init (State.init [])) ⟨"x", true⟩).2).state.model :=
  (C4_model_consistency (Core.init (State.init []))
    ⟨List.nodup_nil, List.Pairwise.nil,
      fun i hi => absurd hi (List.not_mem_nil i)⟩).2.1 ⟨"x", true⟩

/-! ### Claim C2 -/

theorem Model.backjump_natCast (m : Model) (k : Nat) (idx : Nat)
    (hget : m.decisions.get? k = some idx) :
    m.backjump (k : Int) = some
      { assignment := m.assignment.take idx,
        decisions := m.decisions.take k,
        decision_level := (k : Int),
        decision_levels :=
          (m.assignment.drop idx).foldl (fun d l => mapDrop d l) m.decision_levels } := by
  have hslice : pySliceTo m.decisions (k : Int) = m.decisions.take k := by
    unfold pySliceTo
    rw [if_pos (Int.ofNat_zero_le k)]
    rfl
  have hpg : pyGet m.decisions (k : Int) = m.decisions.get? k := by
    unfold pyGet
    rw [if_pos (Int.ofNat_zero_le k)]
    rfl
  unfold Model.backjump
  rw [hpg]
  simp only [hget, hslice]

theorem Model.backjump_natCast_none (m : Model) (k : Nat)
    (hget : m.decisions.get? k = none) : m.backjump (k : Int) = none := by
  have hpg : pyGet m.decisions (k : Int) = m.decisions.get? k := by
    unfold pyGet
    rw [if_pos (Int.ofNat_zero_le k)]
    rfl
  unfold Model.backjump
  rw [hpg]
  simp only [hget]

/-- C2, amended: from an in-conflict state with a conflict clause and a
non-empty trail (and the engine's graph-stack shape), `backjump(k)` for a
natural `k` returns true iff `k` is at least the asserting level AND
`k` is strictly below the current number of decisions (otherwise the Python
code raises an IndexError instead of returning); on true it truncates the
model to level `k`, asserts the negation of the UIP there, clears the
conflict flags, and truncates the graph stack to length `k + 1`; on false
it changes nothing. -/
theorem C2_backjump_spec (core : Core) (k : Nat) (cc : List BoolLiteral)
    (uip : BoolLiteral)
    (hic : core.in_conflict = true)
    (hcc : core.graph.conflict_clause = some cc)
    (hu : core.state.model.get_last_literal = some uip)
    (hg : core.graphs.length = core.state.model.decisions.length + 1) :
    ((Core.backjump core k).map (fun p => p.1) = some true ↔
      (assertingLevel core.state.model cc uip ≤ (k : Int) ∧
        k < core.state.model.decisions.length)) ∧
    (∀ c1, Core.backjump core k = some (true, c1) →
      ∃ idx, core.state.model.decisions.get? k = some idx ∧
        c1.state.model.assignment =
          core.state.model.assignment.take idx ++ [uip.negate] ∧
        c1.state.model.decisions = core.state.model.decisions.take k ∧
        c1.state.model.decision_level = (k : Int) ∧
        mapFind c1.state.model.decision_levels uip.negate = some (k : Int) ∧
        c1.in_conflict = false ∧
        c1.state.conflict = none ∧
        c1.graphs = core.graphs.take (k + 1) ∧
        c1.graphs.length = k + 1) ∧
    (∀ c1, Core.backjump core k = some (false, c1) → c1 = core) := by
  have hslice : pySliceTo core.graphs ((k : Int) + 1) = core.graphs.take (k + 1) := by
    unfold pySliceTo
    rw [if_pos (by omega : (0 : Int) ≤ (k : Int) + 1)]
    rw [show ((k : Int) + 1).toNat = k + 1 from by omega]
  have htake_ne : (core.graphs.take (k + 1)).isEmpty = false := by
    rw [List.isEmpty_eq_false]
    intro hnil
    have : (core.graphs.take (k + 1)).length = 0 := by rw [hnil]; rfl
    rw [List.length_take] at this
    omega
  have hunf : Core.backjump core (k : Int) =
      (if assertingLevel core.state.model cc uip ≤ (k : Int) then
        match core.state.model.backjump (k : Int) with
        | none => none
        | some m1 =>
          if (pySliceTo core.graphs ((k : Int) + 1)).isEmpty then none
          else some (true,
            { graphs := pySliceTo core.graphs ((k : Int) + 1), in_conflict := false,
              state := { core.state with
                         model := m1.assign uip.negate, conflict := none } })
      else some (false, core)) := by
    unfold Core.backjump
    rw [hic]
    simp only [Bool.not_true, Bool.false_eq_true, if_false, hcc, hu]
  by_cases hak : assertingLevel core.state.model cc uip ≤ (k : Int)
  · rw [if_pos hak] at hunf
    cases hget : core.state.model.decisions.get? k with
    | none =>
      rw [Model.backjump_natCast_none core.state.model k hget] at hunf
      refine ⟨?_, ?_, ?_⟩
      · rw [hunf]
        simp only [Option.map_none']
        constructor
        · intro h
          exact absurd h (by simp)
        · rintro ⟨-, hk⟩
          rw [List.get?_eq_none] at hget
          omega
      · intro c1 h1
        rw [hunf] at h1
        exact absurd h1 (by simp)
      · intro c1 h1
        rw [hunf] at h1
        exact absurd h1 (by simp)
    | some idx =>
      rw [Model.backjump_natCast core.state.model k idx hget] at hunf
      simp only [hslice, htake_ne, Bool.false_eq_true, if_false] at hunf
      have hklen : k < core.state.model.decisions.length := by
        rw [List.get?_eq_some] at hget
        exact hget.1
      refine ⟨?_, ?_, ?_⟩
      · rw [hunf]
        simp only [Option.map_some']
        exact iff_of_true (by trivial) ⟨hak, hklen⟩
      · intro c1 h1
        rw [hunf] at h1
        simp only [Option.some.injEq, Prod.mk.injEq, true_and] at h1
        subst h1
        refine ⟨idx, rfl, rfl, rfl, rfl, mapFind_mapStore_self _ _ _, rfl, rfl, rfl, ?_⟩
        rw [List.length_take]
        omega
      · intro c1 h1
        rw [hunf] at h1
        simp at h1
  · rw [if_neg hak] at hunf
    refine ⟨?_, ?_, ?_⟩
    · rw [hunf]
      simp only [Option.map_some']
      constructor
      · intro h
        exact absurd h (by simp)
      · rintro ⟨ha, -⟩
        exact absurd ha hak
    · intro c1 h1
      rw [hunf] at h1
      simp at h1
    · intro c1 h1
      rw [hunf] at h1
      simp only [Option.some.injEq, Prod.mk.injEq] at h1
      exact h1.2.symm

/-- Counterexample for C2 as frozen: on `cx2Core` (in conflict, conflict
clause present, decision level 1) the target level 1 is at least the
asserting level (the `others` set is empty, so the claim's asserting level
is 0), yet `backjump(1)` raises an IndexError (modelled `none`) instead of
returning true. -/
theorem C2_counterexample :
    cx2Core.in_conflict = true ∧
    cx2Core.graph.conflict_clause = some [⟨"x", false⟩] ∧
    cx2Core.state.model.get_last_literal = some ⟨"x", true⟩ ∧
    assertingLevel cx2Core.state.model [⟨"x", false⟩] ⟨"x", true⟩ = -1 ∧
    Core.backjump cx2Core 1 = none := by
  refine ⟨rfl, rfl, rfl, rfl, ?_⟩
  rfl

/-- Witness for C2 (amended): on the same in-conflict state, `backjump(0)`
(0 is at least the asserting level -1 and below the decision count 1)
returns true. -/
theorem C2_witness :
    (Core.backjump cx2Core 0).map (fun p => p.1) = some true :=
  (C2_backjump_spec cx2Core 0 [⟨"x", false⟩] ⟨"x", true⟩ rfl rfl rfl rfl).1.mpr
    ⟨by decide, by decide⟩

/-! ### Claim C7 -/

theorem explainPop_of_ne (core : Core)
    (h : core.state.model.assignment ≠ []) : ∃ cmid, explainPop core = some cmid := by
  unfold explainPop
  cases hl : core.state.model.assignment.getLast? with
  | none =>
    rw [List.getLast?_eq_none_iff] at hl
    exact absurd hl h
  | some last => exact ⟨_, rfl⟩

theorem explainGo_some : ∀ (n : Nat) (core : Core),
    n - 1 ≤ core.state.model.assignment.length →
    ∃ c1, explainGo core n = some c1
  | 0, core, _ => ⟨core, rfl⟩
  | 1, core, _ => ⟨core, rfl⟩
  | n + 2, core, hb => by
    have hne : core.state.model.assignment ≠ [] := by
      intro hnil
      rw [hnil] at hb
      simp at hb
    obtain ⟨cmid, hpop⟩ := explainPop_of_ne core hne
    obtain ⟨ha, -, -, -, -, -, -⟩ := explainPop_facts core cmid hpop
    have hlen : cmid.state.model.assignment.length =
        core.state.model.assignment.length - 1 := by
      rw [ha, List.length_dropLast]
    have hb2 : (n + 1) - 1 ≤ cmid.state.model.assignment.length := by
      rw [hlen]
      simp only [Nat.add_sub_cancel] at hb ⊢
      omega
    obtain ⟨c1, hgo⟩ := explainGo_some (n + 1) cmid hb2
    refine ⟨c1, ?_⟩
    rw [explainGo, hpop]
    exact hgo

theorem explainPop_graph (core cmid : Core) (h : explainPop core = some cmid) :
    ∃ last, core.state.model.assignment.getLast? = some last ∧
      cmid.graph = core.graph.explain last ∧
      cmid.graphs.dropLast = core.graphs.dropLast ∧
      cmid.state.model.assignment = core.state.model.assignment.dropLast := by
  unfold explainPop at h
  cases hlast : core.state.model.assignment.getLast? with
  | none => rw [hlast] at h; exact absurd h (by simp)
  | some last =>
    rw [hlast] at h
    simp only [Option.some.injEq] at h
    subst h
    refine ⟨last, rfl, ?_, ?_, rfl⟩
    · exact graph_concat _ core.graphs.dropLast _ rfl
    · simp only [List.dropLast_concat]

theorem explainGo_graph : ∀ (n : Nat) (core c1 : Core), explainGo core n = some c1 →
    c1.graph = ((core.state.model.assignment.drop
        (core.state.model.assignment.length - (n - 1))).reverse).foldl
      (fun g l => g.explain l) core.graph ∧
    c1.graphs.dropLast = core.graphs.dropLast
  | 0, core, c1, h => by
    simp only [explainGo, Option.some.injEq] at h
    subst h
    simp [List.drop_length]
  | 1, core, c1, h => by
    simp only [explainGo, Option.some.injEq] at h
    subst h
    simp [List.drop_length]
  | n + 2, core, c1, h => by
    rw [explainGo] at h
    cases hpop : explainPop core with
    | none => rw [hpop] at h; exact absurd h (by simp)
    | some cmid =>
      rw [hpop] at h
      obtain ⟨hg1, hg2⟩ := explainGo_graph (n + 1) cmid c1 h
      obtain ⟨last, hlast, hcg, hcgs, hca⟩ := explainPop_graph core cmid hpop
      obtain ⟨front, hfront⟩ := List.getLast?_eq_some_iff.mp hlast
      have hfl : core.state.model.assignment.length = front.length + 1 := by
        rw [hfront]
        simp
      have hca2 : cmid.state.model.assignment = front := by
        rw [hca, hfront, List.dropLast_concat]
      constructor
      · rw [hg1, hca2, hcg]
        have h1 : front.length - ((n + 1) - 1) = front.length - n := by omega
        have h2 : core.state.model.assignment.length - ((n + 2) - 1) =
            front.length - n := by omega
        rw [h1, h2, hfront]
        have hdrop : (front ++ [last]).drop (front.length - n) =
            front.drop (front.length - n) ++ [last] := by
          rw [List.drop_append_of_le_length (by omega)]
        rw [hdrop, List.reverse_append]
        simp
      · rw [hg2, hcgs]

theorem seg_length_after (core c1 : Core)
    (hd : c1.state.model.decisions = core.state.model.decisions)
    (ha : c1.state.model.assignment = core.state.model.assignment.take
        (core.state.model.assignment.length -
          (core.state.model.get_current_decision_literals.length - 1)))
    (hseg : core.state.model.get_current_decision_literals ≠ []) :
    c1.state.model.get_current_decision_literals.length = 1 := by
  unfold Model.get_current_decision_literals at *
  rw [hd]
  cases hlast : core.state.model.decisions.getLast? with
  | none =>
    simp only [hlast] at hseg ha
    have hpos : 0 < core.state.model.assignment.length := List.length_pos.mpr hseg
    rw [ha, List.length_take]
    omega
  | some last =>
    simp only [hlast] at hseg ha
    have hpos : 0 < core.state.model.assignment.length - last := by
      have := List.length_pos.mpr hseg
      simpa using this
    rw [ha]
    simp only [List.length_drop, List.length_take]
    omega

/-- C7 (explain): from any in-conflict state whose current-decision-level
trail segment is non-empty, `explain()` terminates with result true and
leaves exactly one literal (the UIP) in the current-level segment; the run
pops the last `n - 1` trail literals (where `n` is the segment length) and
resolves the active graph's conflict clause with each popped literal in pop
order — each `ImplicationGraph.explain` step removes the literal's negation
from the working conflict clause and inserts the negations of its
antecedents. -/
theorem C7_explain_spec (core : Core)
    (hic : core.in_conflict = true)
    (hseg : core.state.model.get_current_decision_literals ≠ []) :
    ∃ c1, Core.explain core = some (true, c1) ∧
      c1.state.model.get_current_decision_literals.length = 1 ∧
      c1.state.model.assignment = core.state.model.assignment.take
        (core.state.model.assignment.length -
          (core.state.model.get_current_decision_literals.length - 1)) ∧
      c1.graph = ((core.state.model.assignment.drop
          (core.state.model.assignment.length -
            (core.state.model.get_current_decision_literals.length - 1))).reverse).foldl
        (fun g l => g.explain l) core.graph ∧
      c1.state.model.decisions = core.state.model.decisions ∧
      c1.state.clauses = core.state.clauses := by
  have hnle : core.state.model.get_current_decision_literals.length ≤
      core.state.model.assignment.length := by
    unfold Model.get_current_decision_literals
    cases hlast : core.state.model.decisions.getLast? with
    | none => exact Nat.le_refl _
    | some last => simp
  obtain ⟨c1, hgo⟩ := explainGo_some
    core.state.model.get_current_decision_literals.length core (by omega)
  obtain ⟨ha, hd, -, -, hcl, -, hbound⟩ := explainGo_facts _ core c1 hgo
  obtain ⟨hgr, -⟩ := explainGo_graph _ core c1 hgo
  refine ⟨c1, ?_, seg_length_after core c1 hd ha hseg, ha, hgr, hd, hcl⟩
  unfold Core.explain
  rw [hgo]
  rfl

/-- Witness for C7 at the concrete in-conflict state with two
current-level literals: explain succeeds and returns true. -/
theorem C7_witness : (Core.explain c7xCore).map (fun p => p.1) = some true := by
  obtain ⟨c1, h1, -, -, -, -, -⟩ := C7_explain_spec c7xCore rfl (by decide)
  rw [h1]
  rfl

/-! ### Claim C5 -/

theorem mem_foldl_mapDrop {κ β : Type} [DecidableEq κ] :
    ∀ (ks : List κ) (d : List (κ × β)) (pr : κ × β),
      pr ∈ ks.foldl (fun d l => mapDrop d l) d → pr ∈ d ∧ pr.1 ∉ ks
  | [], d, pr, h => ⟨h, List.not_mem_nil _⟩
  | k :: rest, d, pr, h => by
    obtain ⟨h1, h2⟩ := mem_foldl_mapDrop rest (mapDrop d k) pr h
    unfold mapDrop at h1
    rw [List.mem_filter] at h1
    refine ⟨h1.1, ?_⟩
    intro hmem
    rcases List.mem_cons.mp hmem with rfl | hmem2
    · have := h1.2
      simp at this
    · exact h2 hmem2

theorem mapFind_foldl_mapDrop_ne {κ β : Type} [DecidableEq κ] :
    ∀ (ks : List κ) (d : List (κ × β)) (key : κ), key ∉ ks →
      mapFind (ks.foldl (fun d l => mapDrop d l) d) key = mapFind d key
  | [], d, key, _ => rfl
  | k :: rest, d, key, h => by
    have h1 : key ∉ rest := fun hh => h (List.mem_cons_of_mem k hh)
    have h2 : key ≠ k := fun hh => h (hh ▸ List.mem_cons_self k rest)
    rw [List.foldl_cons, mapFind_foldl_mapDrop_ne rest (mapDrop d k) key h1,
      mapFind_mapDrop_ne d k key h2]

theorem levelOfPos_all_lt (dec : List Nat) (n : Nat) (h : ∀ i ∈ dec, i < n) :
    levelOfPos dec n = (dec.length : Int) := by
  unfold levelOfPos
  rw [List.filter_eq_self.mpr]
  intro i hi
  simpa using Nat.le_of_lt (h i hi)

theorem levelOfPos_append_gt (dec : List Nat) (n p : Nat) (h : p < n) :
    levelOfPos (dec ++ [n]) p = levelOfPos dec p := by
  unfold levelOfPos
  rw [List.filter_append]
  have : List.filter (fun i => decide (i ≤ p)) [n] = [] := by
    simp [List.filter_cons]
    omega
  rw [this, List.append_nil]

theorem sorted_drop_ge (dec : List Nat) (k idx : Nat)
    (hs : dec.Pairwise (· < ·)) (hget : dec.get? k = some idx) :
    ∀ i ∈ dec.drop k, idx ≤ i := by
  intro i hi
  obtain ⟨q, hq, hqi⟩ := List.mem_iff_getElem.mp hi
  have hql : k + q < dec.length := by
    rw [List.length_drop] at hq
    omega
  have hdq : dec[k + q] = i := by
    rw [← hqi, List.getElem_drop]
  rw [List.get?_eq_some] at hget
  obtain ⟨hk, hgv⟩ := hget
  have hgv2 : dec[k] = idx := by simpa [List.get_eq_getElem] using hgv
  rcases Nat.eq_or_lt_of_le (Nat.le_add_right k q) with heq | hlt
  · have hq0 : q = 0 := by omega
    subst hq0
    simp only [Nat.add_zero] at hdq
    omega
  · have := List.pairwise_iff_getElem.mp hs k (k + q) hk hql hlt
    omega

theorem levelOfPos_take (dec : List Nat) (k idx p : Nat)
    (hs : dec.Pairwise (· < ·)) (hget : dec.get? k = some idx) (hp : p < idx) :
    levelOfPos (dec.take k) p = levelOfPos dec p := by
  unfold levelOfPos
  conv_rhs => rw [← List.take_append_drop k dec]
  rw [List.filter_append]
  have : List.filter (fun i => decide (i ≤ p)) (dec.drop k) = [] := by
    rw [List.filter_eq_nil]
    intro i hi
    have := sorted_drop_ge dec k idx hs hget i hi
    simpa using by omega
  rw [this, List.append_nil]

/-- Appending a fresh literal at the current level keeps the trail
coherent. -/
theorem trailCoherent_assign {m : Model} (hm : MWF m) (hc : TrailCoherent m)
    {u : BoolLiteral} (h1 : u ∉ m.assignment) :
    TrailCoherent (m.assign u) := by
  obtain ⟨hlv, hkeys, hpos⟩ := hc
  refine ⟨hlv, ?_, ?_⟩
  · intro pr hpr
    unfold Model.assign mapStore at hpr
    rw [List.mem_append] at hpr
    rcases hpr with hpr | hpr
    · have := hkeys pr (List.mem_of_mem_filter hpr)
      exact List.mem_append.mpr (Or.inl this)
    · rw [List.mem_singleton] at hpr
      subst hpr
      exact List.mem_append.mpr (Or.inr (List.mem_singleton_self u))
  · intro p hp
    have hp2 : p < m.assignment.length + 1 := by
      simpa [Model.assign] using hp
    by_cases hlt : p < m.assignment.length
    · have hgv : (m.assign u).assignment.get ⟨p, hp⟩ = m.assignment.get ⟨p, hlt⟩ := by
        rw [← Option.some.injEq, ← List.get?_eq_get, ← List.get?_eq_get]
        exact List.get?_append hlt
      rw [hgv]
      have hne : m.assignment.get ⟨p, hlt⟩ ≠ u := by
        intro hh
        exact h1 (hh ▸ List.get_mem m.assignment _ _)
      show mapFind (mapStore m.decision_levels u m.decision_level) _ =
        some (levelOfPos m.decisions p)
      rw [mapFind_mapStore_ne _ _ _ _ hne]
      exact hpos p hlt
    · have hpl : p = m.assignment.length := by omega
      subst hpl
      have hgv : (m.assign u).assignment.get ⟨m.assignment.length, hp⟩ = u := by
        rw [← Option.some.injEq, ← List.get?_eq_get]
        exact List.get?_concat_length _ _
      rw [hgv]
      show mapFind (mapStore m.decision_levels u m.decision_level) u =
        some (levelOfPos m.decisions m.assignment.length)
      rw [mapFind_mapStore_self, hlv,
        levelOfPos_all_lt m.decisions m.assignment.length hm.2.2]

/-- A decision keeps the trail coherent. -/
theorem trailCoherent_decide {m : Model} (hm : MWF m) (hc : TrailCoherent m)
    {u : BoolLiteral} (h1 : u ∉ m.assignment) :
    TrailCoherent (m.decide u) := by
  obtain ⟨hlv, hkeys, hpos⟩ := hc
  refine ⟨?_, ?_, ?_⟩
  · show m.decision_level + 1 = ((m.decisions ++ [m.assignment.length]).length : Int)
    rw [hlv]
    simp
  · intro pr hpr
    unfold Model.decide mapStore at hpr
    rw [List.mem_append] at hpr
    rcases hpr with hpr | hpr
    · have := hkeys pr (List.mem_of_mem_filter hpr)
      exact List.mem_append.mpr (Or.inl this)
    · rw [List.mem_singleton] at hpr
      subst hpr
      exact List.mem_append.mpr (Or.inr (List.mem_singleton_self u))
  · intro p hp
    have hp2 : p < m.assignment.length + 1 := by
      simpa [Model.decide] using hp
    by_cases hlt : p < m.assignment.length
    · have hgv : (m.decide u).assignment.get ⟨p, hp⟩ = m.assignment.get ⟨p, hlt⟩ := by
        rw [← Option.some.injEq, ← List.get?_eq_get, ← List.get?_eq_get]
        exact List.get?_append hlt
      rw [hgv]
      have hne : m.assignment.get ⟨p, hlt⟩ ≠ u := by
        intro hh
        exact h1 (hh ▸ List.get_mem m.assignment _ _)
      show mapFind (mapStore m.decision_levels u (m.decision_level + 1)) _ =
        some (levelOfPos (m.decisions ++ [m.assignment.length]) p)
      rw [mapFind_mapStore_ne _ _ _ _ hne,
        levelOfPos_append_gt m.decisions m.assignment.length p hlt]
      exact hpos p hlt
    · have hpl : p = m.assignment.length := by omega
      subst hpl
      have hgv : (m.decide u).assignment.get ⟨m.assignment.length, hp⟩ = u := by
        rw [← Option.some.injEq, ← List.get?_eq_get]
        exact List.get?_concat_length _ _
      rw [hgv]
      show mapFind (mapStore m.decision_levels u (m.decision_level + 1)) u =
        some (levelOfPos (m.decisions ++ [m.assignment.length]) m.assignment.length)
      rw [mapFind_mapStore_self]
      unfold levelOfPos
      rw [List.filter_append]
      have h2 : List.filter (fun i => decide (i ≤ m.assignment.length))
          [m.assignment.length] = [m.assignment.length] := by
        simp
      have h3 : List.filter (fun i => decide (i ≤ m.assignment.length))
          m.decisions = m.decisions := by
        rw [List.filter_eq_self]
        intro i hi
        simpa using Nat.le_of_lt (hm.2.2 i hi)
      rw [h2, h3, hlv]
      simp

theorem backjump_cases {core : Core} {k : Int} {b : Bool} {c1 : Core}
    (h : Core.backjump core k = some (b, c1)) :
    (b = false ∧ c1 = core) ∨
    (b = true ∧ ∃ uip m1, core.state.model.get_last_literal = some uip ∧
      core.state.model.backjump k = some m1 ∧
      c1 =
        { graphs := pySliceTo core.graphs (k + 1),
          in_conflict := false,
          state :=
            { core.state with
              model := m1.assign uip.negate,
              conflict := none } }) := by
  unfold Core.backjump at h
  cases hic : core.in_conflict with
  | false =>
    simp only [hic, Bool.not_false, if_true, Option.some.injEq, Prod.mk.injEq] at h
    exact Or.inl ⟨h.1.symm, h.2.symm⟩
  | true =>
    simp only [hic, Bool.not_true, Bool.false_eq_true, if_false] at h
    cases hcc : core.graph.conflict_clause with
    | none =>
      simp only [hcc, Option.some.injEq, Prod.mk.injEq] at h
      exact Or.inl ⟨h.1.symm, h.2.symm⟩
    | some cc =>
      simp only [hcc] at h
      cases hu : core.state.model.get_last_literal with
      | none =>
        simp only [hu] at h
        exact absurd h (by simp)
      | some uip =>
        simp only [hu] at h
        by_cases hak : assertingLevel core.state.model cc uip ≤ k
        · rw [if_pos hak] at h
          cases hmb : core.state.model.backjump k with
          | none =>
            simp only [hmb] at h
            exact absurd h (by simp)
          | some m1 =>
            simp only [hmb] at h
            by_cases hgs : (pySliceTo core.graphs (k + 1)).isEmpty
            · rw [if_pos hgs] at h
              exact absurd h (by simp)
            · rw [if_neg hgs] at h
              simp only [Option.some.injEq, Prod.mk.injEq] at h
              exact Or.inr ⟨h.1.symm, uip, m1, rfl, rfl, h.2.symm⟩
        · rw [if_neg hak] at h
          simp only [Option.some.injEq, Prod.mk.injEq] at h
          exact Or.inl ⟨h.1.symm, h.2.symm⟩

theorem trailCoherent_backjump {core : Core} (hm : MWF core.state.model)
    (hc : TrailCoherent core.state.model) {k : Nat} {b : Bool} {c1 : Core}
    (hbj : Core.backjump core (k : Int) = some (b, c1)) :
    TrailCoherent c1.state.model := by
  rcases backjump_cases hbj with ⟨-, rfl⟩ | ⟨-, uip, m1, hu, hmb, rfl⟩
  · exact hc
  · cases hget : core.state.model.decisions.get? k with
    | none =>
      rw [Model.backjump_natCast_none core.state.model k hget] at hmb
      exact absurd hmb (by simp)
    | some idx =>
      rw [Model.backjump_natCast core.state.model k idx hget] at hmb
      simp only [Option.some.injEq] at hmb
      subst hmb
      obtain ⟨hmw1, hni1, hni2⟩ := backjump_cut hm
        (Model.backjump_natCast core.state.model k idx hget) hu
      have hklen : k < core.state.model.decisions.length := by
        rw [List.get?_eq_some] at hget
        exact hget.1
      have hidx_mem : idx ∈ core.state.model.decisions := List.get?_mem hget
      have hidx_lt : idx < core.state.model.assignment.length := hm.2.2 idx hidx_mem
      have hsplit := List.take_append_drop idx core.state.model.assignment
      have hnodup : core.state.model.assignment.Nodup := hm.1.of_map
      have hdisj : ∀ l, l ∈ core.state.model.assignment.take idx →
          l ∉ core.state.model.assignment.drop idx := by
        intro l hl1 hl2
        have := hsplit ▸ hnodup
        rw [List.nodup_append] at this
        exact this.2.2 hl1 hl2
      have hm1c : TrailCoherent
          { assignment := core.state.model.assignment.take idx,
            decision_level := (k : Int),
            decisions := core.state.model.decisions.take k,
            decision_levels := (core.state.model.assignment.drop idx).foldl
              (fun d l => mapDrop d l) core.state.model.decision_levels } := by
        obtain ⟨hlv, hkeys, hpos⟩ := hc
        refine ⟨?_, ?_, ?_⟩
        · show (k : Int) = ((core.state.model.decisions.take k).length : Int)
          rw [List.length_take]
          congr 1
          omega
        · intro pr hpr
          obtain ⟨hprd, hprn⟩ := mem_foldl_mapDrop _ _ pr hpr
          have := hkeys pr hprd
          conv at this => rw [← hsplit]
          rw [List.mem_append] at this
          rcases this with hh | hh
          · exact hh
          · exact absurd hh hprn
        · intro p hp
          have h2 := hp
          rw [List.length_take, Nat.lt_min] at h2
          have hpidx : p < idx := h2.1
          have hpL : p < core.state.model.assignment.length := h2.2
          have hgv : (core.state.model.assignment.take idx).get ⟨p, hp⟩ =
              core.state.model.assignment.get ⟨p, hpL⟩ := by
            rw [← Option.some.injEq, ← List.get?_eq_get, ← List.get?_eq_get]
            exact List.get?_take hpidx
          rw [hgv]
          have hmem_take : core.state.model.assignment.get ⟨p, hpL⟩ ∈
              core.state.model.assignment.take idx := by
            rw [← hgv]
            exact List.get_mem _ _ _
          have hnr : core.state.model.assignment.get ⟨p, hpL⟩ ∉
              core.state.model.assignment.drop idx := hdisj _ hmem_take
          rw [mapFind_foldl_mapDrop_ne _ _ _ hnr, hpos p hpL,
            levelOfPos_take core.state.model.decisions k idx p hm.2.1 hget hpidx]
      exact trailCoherent_assign hmw1 hm1c hni2

theorem weakCoherent_explain {core : Core} (hc : TrailCoherent core.state.model)
    {b : Bool} {c1 : Core} (he : Core.explain core = some (b, c1)) :
    WeakTrailCoherent c1.state.model := by
  unfold Core.explain at he
  cases hgo : explainGo core core.state.model.get_current_decision_literals.length with
  | none => rw [hgo] at he; exact absurd he (by simp)
  | some cmid =>
    rw [hgo] at he
    simp only [Option.map_some', Option.some.injEq, Prod.mk.injEq] at he
    obtain ⟨-, hc1⟩ := he
    subst hc1
    obtain ⟨ha, hd, hl, hmp, -, -, -⟩ := explainGo_facts _ core cmid hgo
    obtain ⟨hlv, -, hpos⟩ := hc
    refine ⟨?_, ?_⟩
    · rw [hl, hd]
      exact hlv
    · intro p hp
      have hpL : p < core.state.model.assignment.length := by
        have h2 := hp
        rw [ha, List.length_take] at h2
        omega
      have hpJ : p < core.state.model.assignment.length -
          (core.state.model.get_current_decision_literals.length - 1) := by
        have h2 := hp
        rw [ha, List.length_take] at h2
        omega
      have hgv : cmid.state.model.assignment.get ⟨p, hp⟩ =
          core.state.model.assignment.get ⟨p, hpL⟩ := by
        rw [← Option.some.injEq, ← List.get?_eq_get, ← List.get?_eq_get, ha]
        exact List.get?_take hpJ
      rw [hgv, hmp, hd]
      exact hpos p hpL

theorem propagateC_model (core : Core) (cl : Clause) :
    (core.propagateC cl).2.state.model = core.state.model ∨
    ∃ u, u ∉ core.state.model.assignment ∧ u.negate ∉ core.state.model.assignment ∧
      (core.propagateC cl).2.state.model = core.state.model.assign u := by
  cases hscan : (propagateScan core.state.model cl.lits).2 with
  | none =>
    simp only [Core.propagateC, hscan]
    exact Or.inl (by trivial)
  | some u =>
    by_cases hcond : (propagateScan core.state.model cl.lits).1 = 1 ∧
        u ∉ core.state.model.assignment ∧ u.negate ∉ core.state.model.assignment
    · simp only [Core.propagateC, hscan, if_pos hcond]
      exact Or.inr ⟨u, hcond.2.1, hcond.2.2, by trivial⟩
    · simp only [Core.propagateC, hscan, if_neg hcond]
      exact Or.inl (by trivial)

theorem decide_model (core : Core) (lit : BoolLiteral) :
    (core.decide lit).2.state.model = core.state.model ∨
    (lit ∉ core.state.model.assignment ∧ lit.negate ∉ core.state.model.assignment ∧
      (core.decide lit).2.state.model = core.state.model.decide lit) := by
  by_cases hcond : lit ∉ core.state.model.assignment ∧
      lit.negate ∉ core.state.model.assignment
  · simp only [Core.decide, if_pos hcond]
    exact Or.inr ⟨hcond.1, hcond.2, by trivial⟩
  · simp only [Core.decide, if_neg hcond]
    exact Or.inl (by trivial)

/-- C5, amended: starting from a well-formed, coherent trail, propagate,
decide, conflict, backjump (with a natural target level), fail and learn
all preserve full trail coherence (`decision_level = |decisions|`,
`decision_levels` binds exactly the trail literals, each at the level of
its position); `explain`, however, only preserves the weak form — it keeps
`decision_level = |decisions|` and correct levels for the literals still on
the trail, but may leave stale `decision_levels` entries for the popped
literals. -/
theorem C5_trail_coherence (core : Core) (h : MWF core.state.model)
    (hc : TrailCoherent core.state.model) :
    (∀ idx b c1, Core.propagate core idx = some (b, c1) →
      TrailCoherent c1.state.model) ∧
    (∀ lit, TrailCoherent ((Core.decide core lit).2).state.model) ∧
    (∀ idx b c1, Core.conflict core idx = some (b, c1) →
      TrailCoherent c1.state.model) ∧
    (∀ b c1, Core.explain core = some (b, c1) →
      WeakTrailCoherent c1.state.model) ∧
    (∀ (k : Nat) b c1, Core.backjump core (k : Int) = some (b, c1) →
      TrailCoherent c1.state.model) ∧
    TrailCoherent ((Core.fail core).2).state.model ∧
    TrailCoherent ((Core.learn core).2).state.model := by
  refine ⟨?_, ?_, ?_, ?_, ?_, ?_, ?_⟩
  · intro idx b c1 hp
    unfold Core.propagate at hp
    cases hg : core.state.clauses.get? idx with
    | none => rw [hg] at hp; exact absurd hp (by simp)
    | some c =>
      rw [hg] at hp
      simp only [Option.map_some', Option.some.injEq] at hp
      rcases propagateC_model core c with hm2 | ⟨u, h1, h2, hm2⟩
      · rw [hp] at hm2
        rw [show c1.state.model = core.state.model from hm2]
        exact hc
      · rw [hp] at hm2
        rw [show c1.state.model = core.state.model.assign u from hm2]
        exact trailCoherent_assign h hc h1
  · intro lit
    rcases decide_model core lit with hm2 | ⟨h1, h2, hm2⟩
    · rw [hm2]
      exact hc
    · rw [hm2]
      exact trailCoherent_decide h hc h1
  · intro idx b c1 hp
    unfold Core.conflict at hp
    cases hg : core.state.clauses.get? idx with
    | none => rw [hg] at hp; exact absurd hp (by simp)
    | some c =>
      rw [hg] at hp
      simp only [Option.map_some', Option.some.injEq] at hp
      have hm2 := (conflictC_frame core c).2
      rw [hp] at hm2
      rw [show c1.state.model = core.state.model from hm2]
      exact hc
  · intro b c1 he
    exact weakCoherent_explain hc he
  · intro k b c1 hbj
    exact trailCoherent_backjump h hc hbj
  · rw [(fail_frame core).2]
    exact hc
  · rw [(learn_frame core).2.1]
    exact hc

/-- Counterexample for C5 as frozen: on `c7xCore` full trail coherence
holds, but after the rule-engine operation `explain` the dictionary
`decision_levels` keeps a binding for the popped literal y, which is no
longer in the assignment — so `decision_levels` does not contain exactly
the literals of the assignment. -/
theorem C5_counterexample :
    TrailCoherent c7xCore.state.model ∧
    (Core.explain c7xCore).map
      (fun p => decide (∀ pr ∈ p.2.state.model.decision_levels,
        pr.1 ∈ p.2.state.model.assignment)) = some false := by
  constructor
  · decide
  · decide

/-- Witness for C5 (amended): a decision on the fresh engine keeps the
trail coherent. -/
theorem C5_witness :
    TrailCoherent ((Core.decide (Core.init (State.init [])) ⟨"x", true⟩).2).state.model :=
  (C5_trail_coherence (Core.init (State.init []))
    ⟨List.nodup_nil, List.Pairwise.nil, fun i hi => absurd hi (List.not_mem_nil i)⟩
    (by decide)).2.1 ⟨"x", true⟩

/-! ### Claim C6 -/

theorem handleLearn_eq (core : Core) (stats : SolveStats) :
    handleLearn core stats = ((core.learn).2,
      if (core.learn).1.isSome then
        { stats with learned_clauses := stats.learned_clauses + 1 }
      else stats) := by
  unfold handleLearn
  cases hl : (core.learn).1 with
  | none => simp [hl]
  | some cl => simp [hl]

/-- C6, amended: the driver's conflict handling increments the
`learned_clauses` statistic iff `learn()` returned a clause — which happens
exactly when a conflict clause is present — even when an equal clause was
already in the database; `learn()` does return the learned clause in that
case, with the database unchanged, and appends it otherwise. -/
theorem C6_learn_spec (core : Core) (stats : SolveStats) :
    ((handleLearn core stats).2.learned_clauses = stats.learned_clauses + 1 ↔
      (core.learn).1.isSome = true) ∧
    ((handleLearn core stats).2.learned_clauses = stats.learned_clauses ↔
      (core.learn).1 = none) ∧
    (handleLearn core stats).1 = (core.learn).2 ∧
    (∀ cc, core.graph.conflict_clause = some cc →
      (core.learn).1 = some (Clause.make cc) ∧
      (clauseElem (Clause.make cc) core.state.clauses = true →
        (core.learn).2 = core) ∧
      (clauseElem (Clause.make cc) core.state.clauses = false →
        (core.learn).2.state.clauses = core.state.clauses ++ [Clause.make cc])) ∧
    (core.graph.conflict_clause = none → core.learn = (none, core)) := by
  have hlearn : ∀ cc, core.graph.conflict_clause = some cc →
      core.learn = (some (Clause.make cc),
        if clauseElem (Clause.make cc) core.state.clauses then core
        else { core with state := { core.state with
          clauses := core.state.clauses ++ [Clause.make cc] } }) := by
    intro cc hcc
    unfold Core.learn
    simp only [hcc]
    by_cases hel : clauseElem (Clause.make cc) core.state.clauses
    · rw [if_pos hel, if_pos hel]
    · rw [if_neg hel, if_neg hel]
  have hnone : core.graph.conflict_clause = none → core.learn = (none, core) := by
    intro hcc
    unfold Core.learn
    simp only [hcc]
  rw [handleLearn_eq]
  cases hcc : core.graph.conflict_clause with
  | none =>
    rw [hnone hcc]
    refine ⟨?_, ?_, rfl, ?_, fun _ => rfl⟩
    · simp
    · simp
    · intro cc hcc2
      exact absurd hcc2 (by simp)
  | some cc =>
    rw [hlearn cc hcc]
    refine ⟨?_, ?_, rfl, ?_, ?_⟩
    · simp
    · simp
    · intro cc2 hcc2
      simp only [Option.some.injEq] at hcc2
      subst hcc2
      refine ⟨rfl, ?_, ?_⟩
      · intro hel
        rw [if_pos hel]
      · intro hel
        rw [if_neg (by rw [hel]; exact fun h => by simp at h)]
    · intro hcc2
      exact absurd hcc2 (by simp)

/-- Counterexample for C6 as frozen: on `c6xCore` the conflict clause is
already in the database, so `learn()` appends nothing, yet the driver
fragment still increments `learned_clauses`. -/
theorem C6_counterexample :
    (handleLearn c6xCore SolveStats.init).1.state.clauses = c6xCore.state.clauses ∧
    (handleLearn c6xCore SolveStats.init).2.learned_clauses =
      SolveStats.init.learned_clauses + 1 := by
  constructor
  · rfl
  · rfl

/-- Witness for C6 (amended) on the same state: the counter is incremented
because `learn()` returned a clause. -/
theorem C6_witness :
    (handleLearn c6xCore SolveStats.init).2.learned_clauses =
      SolveStats.init.learned_clauses + 1 :=
  (C6_learn_spec c6xCore SolveStats.init).1.mpr (by decide)

/-! ### Claim C8 -/

theorem getD_mod_mem {α : Type} (l : List α) (h : l ≠ []) (i : Nat) (d : α) :
    l.getD (i % l.length) d ∈ l := by
  have hlen : 0 < l.length := List.length_pos.mpr h
  have hmod : i % l.length < l.length := Nat.mod_lt _ hlen
  rw [List.getD_eq_getElem l d hmod]
  exact List.getElem_mem hmod

theorem vsidsStep_facts (activity : List (BoolLiteral × ℚ))
    (acc : Option ℚ × List BoolLiteral) (lit : BoolLiteral) :
    ((vsidsStep activity acc lit).2 = [] → acc.2 = []) ∧
    (acc.1 = none → (vsidsStep activity acc lit).2 ≠ []) ∧
    (acc.2 ≠ [] → (vsidsStep activity acc lit).2 ≠ []) ∧
    (∀ l ∈ (vsidsStep activity acc lit).2, l ∈ acc.2 ∨ l = lit) ∧
    ((vsidsStep activity acc lit).1 = none → acc.1 = none) ∧
    (acc.1 = none → (vsidsStep activity acc lit).1 ≠ none) := by
  unfold vsidsStep
  by_cases hgt : scoreGt ((mapFind activity lit).getD 0) acc.1 = true
  · simp only [hgt, if_true]
    refine ⟨fun h => absurd h (by simp), fun _ => by simp, fun _ => by simp, ?_, ?_, ?_⟩
    · intro l hl
      rw [List.mem_singleton] at hl
      exact Or.inr hl
    · intro h
      exact absurd h (by simp)
    · intro h
      simp
  · simp only [Bool.not_eq_true] at hgt
    simp only [hgt, Bool.false_eq_true, if_false]
    by_cases heq : scoreEq ((mapFind activity lit).getD 0) acc.1 = true
    · simp only [heq, if_true]
      refine ⟨fun h => absurd h (by simp), fun hnone => ?_, fun _ => by simp, ?_, ?_, ?_⟩
      · unfold scoreEq at heq
        rw [hnone] at heq
        simp at heq
      · intro l hl
        rw [List.mem_append, List.mem_singleton] at hl
        exact hl
      · intro h
        exact h
      · intro hnone
        unfold scoreEq at heq
        rw [hnone] at heq
        simp at heq
    · simp only [Bool.not_eq_true] at heq
      simp only [heq, Bool.false_eq_true, if_false]
      refine ⟨fun h => h, fun hnone => ?_, fun h => h, fun l hl => Or.inl hl,
        fun h => h, fun hnone => ?_⟩
      · unfold scoreGt at hgt
        rw [hnone] at hgt
        simp at hgt
      · unfold scoreGt at hgt
        rw [hnone] at hgt
        simp at hgt

/-- The candidate-collection loop of `vsidsPick`: the accumulator's score
is `none` exactly while no candidate exists, the final candidate list is
empty iff no processed variable was free, and every candidate comes from a
free variable (or the initial accumulator). -/
theorem vsids_fold (activity : List (BoolLiteral × ℚ)) (m : Model) :
    ∀ (vl : List String) (acc : Option ℚ × List BoolLiteral),
      (acc.1 = none ↔ acc.2 = []) →
      ((vl.foldl (fun acc v =>
          if decide (BoolLiteral.make_pos v ∈ m.assignment) ||
             decide (BoolLiteral.make_neg v ∈ m.assignment) then acc
          else vsidsStep activity (vsidsStep activity acc (BoolLiteral.make_pos v))
            (BoolLiteral.make_neg v)) acc).2 = [] ↔
        (acc.2 = [] ∧ ∀ v ∈ vl, ¬ freeVar m v)) ∧
      (∀ l ∈ (vl.foldl (fun acc v =>
          if decide (BoolLiteral.make_pos v ∈ m.assignment) ||
             decide (BoolLiteral.make_neg v ∈ m.assignment) then acc
          else vsidsStep activity (vsidsStep activity acc (BoolLiteral.make_pos v))
            (BoolLiteral.make_neg v)) acc).2,
        l ∈ acc.2 ∨ ∃ v ∈ vl, freeVar m v ∧
          (l = BoolLiteral.make_pos v ∨ l = BoolLiteral.make_neg v))
  | [], acc, hinv => by
    refine ⟨?_, ?_⟩
    · simp
    · intro l hl
      exact Or.inl hl
  | v :: rest, acc, hinv => by
    simp only [List.foldl_cons]
    by_cases hassigned : (decide (BoolLiteral.make_pos v ∈ m.assignment) ||
        decide (BoolLiteral.make_neg v ∈ m.assignment)) = true
    · rw [if_pos hassigned]
      obtain ⟨ih1, ih2⟩ := vsids_fold activity m rest acc hinv
      have hnfree : ¬ freeVar m v := by
        unfold freeVar
        rw [Bool.or_eq_true, decide_eq_true_eq, decide_eq_true_eq] at hassigned
        rcases hassigned with hh | hh
        · exact fun hf => hf.1 hh
        · exact fun hf => hf.2 hh
      refine ⟨?_, ?_⟩
      · rw [ih1]
        constructor
        · rintro ⟨ha, hrest⟩
          refine ⟨ha, ?_⟩
          intro w hw
          rcases List.mem_cons.mp hw with rfl | hw2
          · exact hnfree
          · exact hrest w hw2
        · rintro ⟨ha, hall⟩
          exact ⟨ha, fun w hw => hall w (List.mem_cons_of_mem v hw)⟩
      · intro l hl
        rcases ih2 l hl with hh | ⟨w, hw, hfw, hlw⟩
        · exact Or.inl hh
        · exact Or.inr ⟨w, List.mem_cons_of_mem v hw, hfw, hlw⟩
    · rw [if_neg hassigned]
      have hfree : freeVar m v := by
        unfold freeVar
        rw [Bool.or_eq_true, decide_eq_true_eq, decide_eq_true_eq] at hassigned
        push_neg at hassigned
        exact hassigned
      set acc1 := vsidsStep activity acc (BoolLiteral.make_pos v) with hacc1
      set acc2 := vsidsStep activity acc1 (BoolLiteral.make_neg v) with hacc2
      obtain ⟨hs1a, hs1b, hs1c, hs1d, hs1e, hs1f⟩ := vsidsStep_facts activity acc
        (BoolLiteral.make_pos v)
      obtain ⟨hs2a, hs2b, hs2c, hs2d, hs2e, hs2f⟩ := vsidsStep_facts activity acc1
        (BoolLiteral.make_neg v)
      have hacc2_ne : acc2.2 ≠ [] := by
        by_cases hstart : acc.1 = none
        · exact hs2c (hs1b hstart)
        · have hne : acc.2 ≠ [] := fun h => hstart (hinv.mpr h)
          exact hs2c (hs1c hne)
      have hinv2 : acc2.1 = none ↔ acc2.2 = [] := by
        constructor
        · intro h
          by_cases hstart : acc.1 = none
          · exact absurd (hs2e h) (hs1f hstart)
          · exact absurd (hs1e (hs2e h)) hstart
        · intro h
          exact absurd h hacc2_ne
      obtain ⟨ih1, ih2⟩ := vsids_fold activity m rest acc2 hinv2
      refine ⟨?_, ?_⟩
      · rw [ih1]
        constructor
        · rintro ⟨ha, -⟩
          exact absurd ha hacc2_ne
        · rintro ⟨-, hall⟩
          exact absurd (hall v (List.mem_cons_self v rest)) (fun hh => hh hfree)
      · intro l hl
        rcases ih2 l hl with hh | ⟨w, hw, hfw, hlw⟩
        · rcases hs2d l hh with hh2 | rfl
          · rcases hs1d l hh2 with hh3 | rfl
            · exact Or.inl hh3
            · exact Or.inr ⟨v, List.mem_cons_self v rest, hfree, Or.inl rfl⟩
          · exact Or.inr ⟨v, List.mem_cons_self v rest, hfree, Or.inr rfl⟩
        · exact Or.inr ⟨w, List.mem_cons_of_mem v hw, hfw, hlw⟩

/-- C8 (heuristic termination): both the random baseline and the VSIDS
heuristic return `None` iff every variable of their variable list occurs in
the model in some polarity; otherwise they return a literal whose variable
is unassigned in both polarities.  The seeded PRNG draws are abstracted as
the selector arguments. -/
theorem C8_heuristic_pick_spec
    (chooseVar : List String → Nat) (choosePol : Bool)
    (chooseC : List BoolLiteral → Nat)
    (varList : List String) (activity : List (BoolLiteral × ℚ)) (m : Model) :
    ((baselinePick chooseVar choosePol varList m = none ↔
        ∀ v ∈ varList, BoolLiteral.make_pos v ∈ m.assignment ∨
          BoolLiteral.make_neg v ∈ m.assignment) ∧
      (∀ l, baselinePick chooseVar choosePol varList m = some l →
        BoolLiteral.make_pos l.var ∉ m.assignment ∧
        BoolLiteral.make_neg l.var ∉ m.assignment)) ∧
    ((vsidsPick chooseC varList activity m = none ↔
        ∀ v ∈ varList, BoolLiteral.make_pos v ∈ m.assignment ∨
          BoolLiteral.make_neg v ∈ m.assignment) ∧
      (∀ l, vsidsPick chooseC varList activity m = some l →
        BoolLiteral.make_pos l.var ∉ m.assignment ∧
        BoolLiteral.make_neg l.var ∉ m.assignment)) := by
  have hpred : ∀ v, ((!decide (BoolLiteral.make_pos v ∈ m.assignment)) &&
      (!decide (BoolLiteral.make_neg v ∈ m.assignment))) = true ↔ freeVar m v := by
    intro v
    unfold freeVar
    simp
  constructor
  · unfold baselinePick
    by_cases hU : (varList.filter (fun v =>
        (!decide (BoolLiteral.make_pos v ∈ m.assignment)) &&
        (!decide (BoolLiteral.make_neg v ∈ m.assignment)))).isEmpty
    · rw [if_pos hU]
      rw [List.isEmpty_iff] at hU
      constructor
      · constructor
        · intro _ v hv
          have : ¬ freeVar m v := by
            intro hf
            have hmem : v ∈ varList.filter (fun v =>
                (!decide (BoolLiteral.make_pos v ∈ m.assignment)) &&
                (!decide (BoolLiteral.make_neg v ∈ m.assignment))) := by
              rw [List.mem_filter]
              exact ⟨hv, (hpred v).mpr hf⟩
            rw [hU] at hmem
            exact absurd hmem (List.not_mem_nil v)
          unfold freeVar at this
          by_cases hp : BoolLiteral.make_pos v ∈ m.assignment
          · exact Or.inl hp
          · by_cases hn : BoolLiteral.make_neg v ∈ m.assignment
            · exact Or.inr hn
            · exact absurd ⟨hp, hn⟩ this
        · intro _
          rfl
      · intro l hl
        exact absurd hl (by simp)
    · rw [if_neg hU]
      rw [Bool.not_eq_true, List.isEmpty_eq_false] at hU
      constructor
      · constructor
        · intro h
          exact absurd h (by simp)
        · intro hall
          exfalso
          apply hU
          rw [List.filter_eq_nil_iff]
          intro v hv
          rw [Bool.not_eq_true]
          rw [← Bool.not_eq_true]
          intro hfree
          rcases hall v hv with hh | hh
          · exact ((hpred v).mp hfree).1 hh
          · exact ((hpred v).mp hfree).2 hh
      · intro l hl
        simp only [Option.some.injEq] at hl
        have hmem := getD_mod_mem _ hU
          (chooseVar (varList.filter (fun v =>
            (!decide (BoolLiteral.make_pos v ∈ m.assignment)) &&
            (!decide (BoolLiteral.make_neg v ∈ m.assignment))))) ""
        rw [← hl]
        have hsel := hmem
        rw [List.mem_filter] at hsel
        have hfree := (hpred _).mp hsel.2
        exact hfree
  · unfold vsidsPick
    obtain ⟨hemp, hmem⟩ := vsids_fold activity m varList ((none : Option ℚ), [])
      (iff_of_true rfl rfl)
    by_cases hr : ((varList.foldl (fun acc v =>
        if decide (BoolLiteral.make_pos v ∈ m.assignment) ||
           decide (BoolLiteral.make_neg v ∈ m.assignment) then acc
        else vsidsStep activity (vsidsStep activity acc (BoolLiteral.make_pos v))
          (BoolLiteral.make_neg v)) ((none : Option ℚ), [])).2).isEmpty
    · rw [if_pos hr]
      rw [List.isEmpty_iff] at hr
      constructor
      · constructor
        · intro _ v hv
          have hnall := (hemp.mp hr).2 v hv
          unfold freeVar at hnall
          by_cases hp : BoolLiteral.make_pos v ∈ m.assignment
          · exact Or.inl hp
          · by_cases hn : BoolLiteral.make_neg v ∈ m.assignment
            · exact Or.inr hn
            · exact absurd ⟨hp, hn⟩ hnall
        · intro _
          rfl
      · intro l hl
        exact absurd hl (by simp)
    · rw [if_neg hr]
      rw [Bool.not_eq_true, List.isEmpty_eq_false] at hr
      constructor
      · constructor
        · intro h
          exact absurd h (by simp)
        · intro hall
          exfalso
          apply hr
          rw [hemp]
          refine ⟨rfl, ?_⟩
          intro v hv hfree
          rcases hall v hv with hh | hh
          · exact hfree.1 hh
          · exact hfree.2 hh
      · intro l hl
        simp only [Option.some.injEq] at hl
        have hmem2 := getD_mod_mem _ hr
          (chooseC ((varList.foldl (fun acc v =>
            if decide (BoolLiteral.make_pos v ∈ m.assignment) ||
               decide (BoolLiteral.make_neg v ∈ m.assignment) then acc
            else vsidsStep activity (vsidsStep activity acc (BoolLiteral.make_pos v))
              (BoolLiteral.make_neg v)) ((none : Option ℚ), [])).2))
          (⟨"", true⟩ : BoolLiteral)
        rw [← hl]
        rcases hmem _ hmem2 with hh | ⟨v, -, hfv, hlv⟩
        · exact absurd hh (List.not_mem_nil _)
        · unfold freeVar at hfv
          rcases hlv with hlv | hlv
          · rw [hlv]
            exact hfv
          · rw [hlv]
            exact hfv

/-- Witness for C8 at a concrete model: with variable b assigned, both
heuristics pick a literal over the free variable a. -/
theorem C8_witness :
    baselinePick (fun _ => 0) true ["a", "b"]
      { assignment := [⟨"b", true⟩], decision_level := 0, decisions := [],
        decision_levels := [(⟨"b", true⟩, 0)] } = none ↔
      ∀ v ∈ ["a", "b"], BoolLiteral.make_pos v ∈
          [(⟨"b", true⟩ : BoolLiteral)] ∨
        BoolLiteral.make_neg v ∈ [(⟨"b", true⟩ : BoolLiteral)] :=
  (C8_heuristic_pick_spec (fun _ => 0) true (fun _ => 0) ["a", "b"] []
    { assignment := [⟨"b", true⟩], decision_level := 0, decisions := [],
      decision_levels := [(⟨"b", true⟩, 0)] }).1.1

theorem parseToken_keeps_nonempty (st : List Clause × List BoolLiteral) (tok : String)
    (h : ∀ cl ∈ st.1, cl.lits ≠ []) : ∀ cl ∈ (parseToken st tok).1, cl.lits ≠ [] := by
  unfold parseToken
  by_cases h0 : tok = "0"
  · rw [if_pos h0]
    by_cases he : st.2.isEmpty
    · rw [if_pos he]
      exact h
    · rw [if_neg he]
      intro cl hcl
      rcases List.mem_append.mp hcl with hcl | hcl
      · exact h cl hcl
      · have hcl2 := List.mem_singleton.mp hcl
        subst hcl2
        intro hnil
        have h2 : st.2 = [] := (List.dedup_eq_nil _).mp hnil
        rw [h2] at he
        exact he rfl
  · rw [if_neg h0]
    by_cases hs : pyStartsWith tok "-" = true
    · rw [if_pos hs]
      exact h
    · rw [if_neg hs]
      exact h

theorem foldTokens_keeps_nonempty (toks : List String) :
    ∀ st : List Clause × List BoolLiteral, (∀ cl ∈ st.1, cl.lits ≠ []) →
      ∀ cl ∈ (toks.foldl parseToken st).1, cl.lits ≠ [] := by
  induction toks with
  | nil => intro st h; exact h
  | cons t ts ih =>
    intro st h
    exact ih _ (parseToken_keeps_nonempty st t h)

theorem parseLine_keeps_nonempty (st : List Clause × List BoolLiteral) (raw : String)
    (h : ∀ cl ∈ st.1, cl.lits ≠ []) : ∀ cl ∈ (parseLine st raw).1, cl.lits ≠ [] := by
  simp only [parseLine]
  by_cases hc : ((pyStrip raw).isEmpty || pyStartsWith (pyStrip raw) "c" ||
      pyStartsWith (pyStrip raw) "p") = true
  · rw [if_pos hc]
    exact h
  · rw [if_neg hc]
    exact foldTokens_keeps_nonempty _ st h

theorem foldLines_keeps_nonempty (lines : List String) :
    ∀ st : List Clause × List BoolLiteral, (∀ cl ∈ st.1, cl.lits ≠ []) →
      ∀ cl ∈ (lines.foldl parseLine st).1, cl.lits ≠ [] := by
  induction lines with
  | nil => intro st h; exact h
  | cons l ls ih =>
    intro st h
    exact ih _ (parseLine_keeps_nonempty st l h)

theorem parseLine_zero (st : List Clause × List BoolLiteral) :
    parseLine st "0" = parseToken st "0" := by
  have hc : ¬ (((pyStrip "0").isEmpty || pyStartsWith (pyStrip "0") "c" ||
      pyStartsWith (pyStrip "0") "p") = true) := by decide
  have hs : splitTokens (pyStrip "0") = ["0"] := by decide
  simp only [parseLine]
  rw [if_neg hc, hs]
  rfl

theorem parse_dimacs_flush (lines : List String) :
    parse_dimacs (lines ++ ["0"]) = parse_dimacs lines := by
  simp only [parse_dimacs]
  rw [List.foldl_append]
  simp only [List.foldl_cons, List.foldl_nil, parseLine_zero]
  rcases hst : lines.foldl parseLine ([], []) with ⟨cls, acc⟩
  cases acc with
  | nil => rfl
  | cons a as => rfl

theorem parse_dimacs_no_empty (lines : List String) :
    ∀ cl ∈ parse_dimacs lines, cl.lits ≠ [] := by
  simp only [parse_dimacs]
  by_cases he : (lines.foldl parseLine ([], [])).2.isEmpty
  · rw [if_pos he]
    exact foldLines_keeps_nonempty lines ([], []) (fun cl h => absurd h (List.not_mem_nil cl))
  · rw [if_neg he]
    intro cl hcl
    rcases List.mem_append.mp hcl with h | h
    · exact foldLines_keeps_nonempty lines ([], [])
        (fun c hc => absurd hc (List.not_mem_nil c)) cl h
    · have h2 := List.mem_singleton.mp h
      subst h2
      intro hnil
      have h3 : (lines.foldl parseLine ([], [])).2 = [] := (List.dedup_eq_nil _).mp hnil
      rw [h3] at he
      exact he rfl

/-- C9 (parser robustness): a missing trailing 0 token is harmless (appending
an explicit terminator changes nothing, so the final non-empty accumulator is
emitted as a clause), no parsed clause is empty (consecutive 0 tokens emit
nothing), and stripped lines that are empty or begin with c or p leave the
parse state unchanged. -/
theorem C9_parser_robustness :
    (∀ lines : List String, parse_dimacs (lines ++ ["0"]) = parse_dimacs lines) ∧
    (∀ lines : List String, ∀ cl ∈ parse_dimacs lines, cl.lits ≠ []) ∧
    (∀ (st : List Clause × List BoolLiteral) (raw : String),
      ((pyStrip raw).isEmpty || pyStartsWith (pyStrip raw) "c" ||
        pyStartsWith (pyStrip raw) "p") = true →
      parseLine st raw = st) := by
  refine ⟨parse_dimacs_flush, parse_dimacs_no_empty, ?_⟩
  intro st raw h
  simp only [parseLine]
  rw [if_pos h]

/-- Witness for C9 on concrete input: a file whose last clause lacks its 0,
a clause produced between double terminators, and a comment line. -/
theorem C9_witness :
    (parse_dimacs (["1 2"] ++ ["0"]) = parse_dimacs ["1 2"] ∧
      (Clause.make [BoolLiteral.make_pos "1"]).lits ≠ []) ∧
    parseLine ([], []) "c comment" = ([], []) :=
  ⟨⟨C9_parser_robustness.1 ["1 2"],
    C9_parser_robustness.2.1 ["1 0 0"] (Clause.make [BoolLiteral.make_pos "1"]) (by decide)⟩,
   C9_parser_robustness.2.2 ([], []) "c comment" (by decide)⟩

/-- C10 (frame property): solve_cnf operates on a fresh copy of the caller's
clause list (solver.py line 84, `State(list(clauses))`), and learned clauses
are appended only to that copy, so the caller's list object is unchanged when
solve_cnf returns. -/
theorem C10_caller_clauses_unchanged (pick : Nat → Model → Option BoolLiteral)
    (fuel : Nat) (store : ListStore) (callerRef : Nat)
    (h : callerRef < store.cells.length) :
    ((solve_cnf_heap pick fuel store callerRef).1).read callerRef =
      store.read callerRef := by
  simp only [solve_cnf_heap, ListStore.write, ListStore.read]
  rw [List.get?_set_ne _ _ (Nat.ne_of_gt h)]
  rw [List.get?_append h]

/-- Witness for C10 at a concrete one-cell store. -/
theorem C10_witness :
    0 < (⟨[[Clause.make [⟨"x", true⟩]]]⟩ : ListStore).cells.length ∧
    ((solve_cnf_heap (fun _ _ => none) 3 ⟨[[Clause.make [⟨"x", true⟩]]]⟩ 0).1).read 0 =
      (⟨[[Clause.make [⟨"x", true⟩]]]⟩ : ListStore).read 0 :=
  ⟨by decide,
   C10_caller_clauses_unchanged (fun _ _ => none) 3 ⟨[[Clause.make [⟨"x", true⟩]]]⟩ 0
     (by decide)⟩

end CDCL
